import Mathlib

/-
  Verification development for the staq hardware-mapping subsystem.

  The mapper itself is translated from `mapping/mapping/swap.hpp`
  (class `staq::mapping::SwapMapper`), and the Python-facing wrapper
  from `pystaq/staq_wrapper.cpp`.  The `Device` shortest-path oracle,
  the layout passes and the inliner are external to those files; where
  they are needed they are modelled from the specification (each such
  definition carries a doc comment starting with `Modelled from the
  spec:`).
-/

namespace StaqMap

/-! ### The amplitude ring ℚ[√2]

Circuit semantics for circuits built from CNOT and Hadamard gates only
needs amplitudes in ℚ adjoined with √2.  An element `⟨a, b⟩` denotes
`a + b·√2`. -/

structure Q2 where
  a : ℚ
  b : ℚ
deriving DecidableEq

instance : Zero Q2 := ⟨⟨0, 0⟩⟩
instance : One Q2 := ⟨⟨1, 0⟩⟩
instance : Add Q2 := ⟨fun x y => ⟨x.a + y.a, x.b + y.b⟩⟩
instance : Neg Q2 := ⟨fun x => ⟨-x.a, -x.b⟩⟩
instance : Mul Q2 := ⟨fun x y => ⟨x.a * y.a + 2 * x.b * y.b, x.a * y.b + x.b * y.a⟩⟩

@[simp] theorem Q2.add_a (x y : Q2) : (x + y).a = x.a + y.a := rfl
@[simp] theorem Q2.add_b (x y : Q2) : (x + y).b = x.b + y.b := rfl
@[simp] theorem Q2.mul_a (x y : Q2) : (x * y).a = x.a * y.a + 2 * x.b * y.b := rfl
@[simp] theorem Q2.mul_b (x y : Q2) : (x * y).b = x.a * y.b + x.b * y.a := rfl
@[simp] theorem Q2.neg_a (x : Q2) : (-x).a = -x.a := rfl
@[simp] theorem Q2.neg_b (x : Q2) : (-x).b = -x.b := rfl

theorem Q2.ext_ab {x y : Q2} (ha : x.a = y.a) (hb : x.b = y.b) : x = y := by
  cases x; cases y; cases ha; cases hb; rfl

/-- `√2 / 2`, the Hadamard normalisation. -/
def hcoef : Q2 := ⟨0, 1/2⟩

@[simp] theorem hcoef_a : hcoef.a = 0 := rfl
@[simp] theorem hcoef_b : hcoef.b = 1/2 := rfl

/-! ### Expressions and gates

Translated from the fragment of the qasmtools AST that
`SwapMapper` constructs: `PiExpr`, `IntExpr`, a `BExpr` with `Divide`,
`CNOTGate` and `UGate`.  Programs are lists of gate statements on the
single global register (default name `"q"`); a qubit reference is its
integer offset. -/

inductive Expr : Type where
  | pi : Expr
  | int : Int → Expr
  | div : Expr → Expr → Expr
deriving DecidableEq

inductive Gate : Type where
  | cnot : Nat → Nat → Gate
  | u : Expr → Expr → Expr → Nat → Gate
deriving DecidableEq

/-- Translated from `SwapMapper::generate_cnot`. -/
def generate_cnot (i j : Nat) : Gate := Gate.cnot i j

/-- Translated from `SwapMapper::generate_hadamard`: the gate
`U(pi/2, 0, pi)` on qubit `i`. -/
def generate_hadamard (i : Nat) : Gate :=
  Gate.u (Expr.div Expr.pi (Expr.int 2)) (Expr.int 0) Expr.pi i

/-- Translated from `SwapMapper::generate_swapped_cnot`: the
Hadamard-sandwich form of `CNOT i j`. -/
def generate_swapped_cnot (i j : Nat) : List Gate :=
  [generate_hadamard i, generate_hadamard j, generate_cnot j i,
   generate_hadamard i, generate_hadamard j]

/-! ### The device

`mapping/device.hpp` is not among the provided sources; the device is
modelled from §3/§4.1 of the specification: a qubit count and a
(non-necessarily symmetric) adjacency predicate. -/

/-- Modelled from the spec: §3 Device — `n` qubits and an `n × n`
boolean coupling matrix (represented as a predicate; only indices
`< qubits` are ever queried by the mapper). -/
structure Device : Type where
  qubits : Nat
  adj : Nat → Nat → Bool

/-- Modelled from the spec: §4.1 — `coupled(i, j)` returns `adj[i][j]`
(directional). -/
def Device.coupled (d : Device) (i j : Nat) : Bool := d.adj i j

/-- The symmetric closure of the coupling matrix. -/
def symAdj (d : Device) (i j : Nat) : Bool := d.adj i j || d.adj j i

/-- Modelled from the spec: §4.1 — the neighbours of `u` in the
symmetric closure of `adj`, in ascending index order. -/
def neighbors (d : Device) (u : Nat) : List Nat :=
  (List.range d.qubits).filter (fun v => symAdj d u v)

/-- Modelled from the spec: §4.1 — one BFS expansion step for a single
frontier node `u` reached by `p`: visit each unvisited neighbour in
`nbrs`, extending the path. -/
def expandNode (u : Nat) (p : List Nat) : List Nat → List Nat →
    List (Nat × List Nat) × List Nat
  | [], vis => ([], vis)
  | v :: vs, vis =>
    if v ∈ vis then expandNode u p vs vis
    else
      let r := expandNode u p vs (v :: vis)
      ((v, p ++ [v]) :: r.1, r.2)

/-- Modelled from the spec: §4.1 — expand a whole BFS layer,
first-discovered occupant of a node wins. -/
def expandLayer (d : Device) : List (Nat × List Nat) → List Nat →
    List (Nat × List Nat) × List Nat
  | [], vis => ([], vis)
  | e :: rest, vis =>
    let r1 := expandNode e.1 e.2 (neighbors d e.1) vis
    let r2 := expandLayer d rest r1.2
    (r1.1 ++ r2.1, r2.2)

/-- Modelled from the spec: §4.1 — fuelled breadth-first search for
`dst`, returning the discovered path (excluding the source, including
the destination), or `[]` when no path exists. -/
def bfsSearch (d : Device) (dst : Nat) : Nat → List Nat →
    List (Nat × List Nat) → List Nat
  | 0, _, _ => []
  | fuel + 1, vis, frontier =>
    match frontier.find? (fun e => e.1 = dst) with
    | some e => e.2
    | none =>
      let r := expandLayer d frontier vis
      if r.1.isEmpty then [] else bfsSearch d dst fuel r.2 r.1

/-- Modelled from the spec: §4.1 — `shortest_path(src, dst)`: the path
excluding the source, including the destination; empty when
`src = dst` or when no path exists; successive pairs lie in the
symmetric closure of `adj`. -/
def Device.shortest_path (d : Device) (src dst : Nat) : List Nat :=
  if src = dst then []
  else bfsSearch d dst (d.qubits + 1) [src] [(src, [])]

/-! ### The running permutation

`SwapMapper::permutation_` is a `std::map<int, int>`.  It is modelled
as an association list with unique keys; `operator[]` default-inserts
`0` for an absent key. -/

abbrev PermMap := List (Nat × Nat)

/-- Association-list lookup (first matching key). -/
def mlook : PermMap → Nat → Option Nat
  | [], _ => none
  | kv :: rest, k => if kv.1 = k then some kv.2 else mlook rest k

/-- The value `std::map::operator[]` would return: the stored value, or
the value-initialised `0` for an absent key. -/
def mval (m : PermMap) (k : Nat) : Nat := (mlook m k).getD 0

/-- Translated from `SwapMapper::replace(ast::VarAccess&)` together
with the `std::map::operator[]` semantics: look the offset up,
default-inserting `0` when absent, and return the updated map and the
rewritten offset. -/
def maccess (m : PermMap) (k : Nat) : PermMap × Nat :=
  match mlook m k with
  | some v => (m, v)
  | none => (m ++ [(k, 0)], 0)

/-- Translated from the permutation-adjustment loop of
`SwapMapper::replace(ast::CNOTGate&)`: every stored value equal to `i`
becomes `j` and vice versa. -/
def permSwap (m : PermMap) (i j : Nat) : PermMap :=
  m.map (fun kv => (kv.1, if kv.2 = i then j else if kv.2 = j then i else kv.2))

/-- Translated from the `SwapMapper` constructor: the identity
permutation on `0 .. n-1`. -/
def initPerm (n : Nat) : PermMap := (List.range n).map (fun i => (i, i))

/-! ### The swap mapper -/

/-- Translated from the final-step branch (`j == tgt`) of
`SwapMapper::replace(ast::CNOTGate&)`: a physical CNOT, or its
Hadamard-sandwich form when the direction is not coupled. -/
def finalCnot (dev : Device) (i j : Nat) : List Gate :=
  if dev.coupled i j then [generate_cnot i j] else generate_swapped_cnot i j

/-- Translated from the intermediate-step branch of
`SwapMapper::replace(ast::CNOTGate&)`: a SWAP of `i` and `j` as three
CNOTs, the labels flipped beforehand when `adj[i][j]` fails, and the
middle CNOT Hadamard-sandwiched when its direction is not coupled. -/
def swapGates (dev : Device) (i j : Nat) : List Gate :=
  let si := if dev.coupled i j then i else j
  let sj := if dev.coupled i j then j else i
  [generate_cnot si sj] ++
    (if dev.coupled sj si then [generate_cnot sj si]
     else generate_swapped_cnot sj si) ++
    [generate_cnot si sj]

/-- Translated from the path-walking loop of
`SwapMapper::replace(ast::CNOTGate&)`: walk the chain with moving
cursor `i`, emitting gates and recording the swapped slot pairs (the
permutation adjustments) in order. -/
def walkCnot (dev : Device) (tgt : Nat) : Nat → List Nat →
    List Gate × List (Nat × Nat)
  | _, [] => ([], [])
  | i, j :: rest =>
    if j = tgt then (finalCnot dev i j, [])
    else if j ≠ i then
      let r := walkCnot dev tgt j rest
      (swapGates dev i j ++ r.1, (i, j) :: r.2)
    else walkCnot dev tgt i rest

/-- Translated from `SwapMapper::replace(ast::CNOTGate&)`: compute a
shortest path between the (already permuted) control and target; on an
empty path return `none` (the diagnostic is recorded by the caller),
otherwise the replacement gates and the updated permutation. -/
def replaceCnot (dev : Device) (m : PermMap) (c t : Nat) :
    Option (List Gate) × PermMap :=
  let chain := dev.shortest_path c t
  if chain.isEmpty then (none, m)
  else
    let r := walkCnot dev t c chain
    (some r.1, r.2.foldl (fun mm ij => permSwap mm ij.1 ij.2) m)

/-- Translated from the `ast::Replacer` post-order traversal of one
statement: qubit references are rewritten through the permutation
first, then a CNOT is replaced by its swap chain.  The third component
is the error log: the pair of qubits named by the
`could not find a connection between qubits` diagnostic. -/
def processStmt (dev : Device) (m : PermMap) :
    Gate → List Gate × PermMap × List (Nat × Nat)
  | Gate.cnot c0 t0 =>
    let a1 := maccess m c0
    let a2 := maccess a1.1 t0
    let r := replaceCnot dev a2.1 a1.2 a2.2
    match r.1 with
    | none => ([Gate.cnot a1.2 a2.2], r.2, [(a1.2, a2.2)])
    | some gs => (gs, r.2, [])
  | Gate.u th ph la q0 =>
    let a1 := maccess m q0
    ([Gate.u th ph la a1.2], a1.1, [])

/-- Translated from `SwapMapper::run`: traverse the statements in
order, threading the permutation, concatenating the replacement
statements and the error log. -/
def runStmts (dev : Device) (m : PermMap) :
    List Gate → List Gate × PermMap × List (Nat × Nat)
  | [] => ([], m, [])
  | s :: rest =>
    let r1 := processStmt dev m s
    let r2 := runStmts dev r1.2.1 rest
    (r1.1 ++ r2.1, r2.2.1, r1.2.2 ++ r2.2.2)

/-- Translated from `staq::mapping::map_onto_device`: run the swap
mapper from the identity permutation. -/
def map_onto_device (dev : Device) (prog : List Gate) :
    List Gate × PermMap × List (Nat × Nat) :=
  runStmts dev (initPerm dev.qubits) prog

/-! ### The pystaq `Device` wrapper

Translated from class `Device` in `pystaq/staq_wrapper.cpp`.  C++
`double` fidelities are modelled as rationals. -/

/-- Modelled from the spec: §6 — the default fidelity constant
`FIDELITY_1` (defined in `mapping/device.hpp`, not among the provided
sources), "typically 0.99"; built structurally as `99/100` so that
rational comparisons evaluate. -/
def FID1 : ℚ := ⟨99, 100, by decide, by decide⟩

/-- Set entry `(i, j)` of a matrix stored as a list of rows (a no-op
out of bounds, as for a correctly sized `std::vector` it never is). -/
def setMat {α : Type} (m : List (List α)) (i j : Nat) (v : α) :
    List (List α) :=
  match m.get? i with
  | none => m
  | some row => m.set i (row.set j v)

/-- Translated from `pystaq`'s `class Device`: qubit count,
single-qubit fidelities, adjacency matrix, two-qubit fidelities. -/
structure PyDevice : Type where
  n : Int
  sq_fi : List ℚ
  adj : List (List Bool)
  tq_fi : List (List ℚ)
deriving DecidableEq

/-- Translated from the `pystaq` `Device(int n)` constructor (which
throws for `n ≤ 0`). -/
def mkPyDevice (n : Int) : Option PyDevice :=
  if n ≤ 0 then none
  else
    some ⟨n, List.replicate n.toNat FID1,
      List.replicate n.toNat (List.replicate n.toNat false),
      List.replicate n.toNat (List.replicate n.toNat FID1)⟩

/-- Translated from `pystaq`'s `Device::add_edge`: the returned list is
the error log written to `std::cerr`. -/
def PyDevice.add_edge (d : PyDevice) (control target : Int)
    (directed : Bool) (fidelity : ℚ) : PyDevice × List String :=
  if control < 0 || d.n ≤ control || target < 0 || d.n ≤ target then
    (d, ["Qubit(s) out of range"])
  else
    let c := control.toNat
    let t := target.toNat
    let adj1 := setMat d.adj c t true
    let adj2 := if directed then adj1 else setMat adj1 t c true
    if fidelity ≠ FID1 then
      if fidelity < 0 || 1 < fidelity then
        ({ d with adj := adj2 }, ["Fidelity out of range"])
      else
        let tq1 := setMat d.tq_fi c t fidelity
        let tq2 := if directed then tq1 else setMat tq1 t c fidelity
        ({ d with adj := adj2, tq_fi := tq2 }, [])
    else ({ d with adj := adj2 }, [])

/-! ### The `Program::map` wrapper

Translated from `Program::map` in `pystaq/staq_wrapper.cpp`.  A
program is the single global register's declared size together with
its statements.  The inliner, the `eager` and `bestfit` layouts and
the Steiner mapper are external collaborators (not among the provided
sources); the control flow is parametric in the latter two, and the
inliner is modelled as the identity (§1 declares parsing and inlining
out of scope; programs are taken already inlined). -/

structure WProgram : Type where
  regSize : Nat
  stmts : List Gate
deriving DecidableEq

/-- Rename every qubit reference of a gate through `f`. -/
def renameGate (f : Nat → Nat) : Gate → Gate
  | Gate.cnot c t => Gate.cnot (f c) (f t)
  | Gate.u a b c q => Gate.u a b c (f q)

/-- Modelled from the spec: §1 — inlining is an out-of-scope
collaborator pass; modelled as the identity on already-inlined
programs. -/
def inline_ast (p : WProgram) : WProgram := p

/-- Modelled from the spec: §4.2 — the `linear` layout is the identity
on `0 .. k-1`. -/
def compute_basic_layout (_ : Device) (_ : WProgram) : Nat → Nat :=
  fun i => i

/-- Modelled from the spec: §4.3 `LayoutApplier` — rewrite every
reference through the layout and resize the global register to the
device width. -/
def apply_layout (lay : Nat → Nat) (dev : Device) (p : WProgram) :
    WProgram :=
  ⟨dev.qubits, p.stmts.map (renameGate lay)⟩

/-- The external passes `Program::map` can dispatch to whose code is
not among the provided sources: the `eager` and `bestfit` layouts and
the Steiner mapper. -/
structure ExternalPasses : Type where
  eager : Device → WProgram → (Nat → Nat)
  bestfit : Device → WProgram → (Nat → Nat)
  steiner : Device → WProgram → WProgram

/-- Translated from `Program::map` (`pystaq/staq_wrapper.cpp`,
`evaluate_all = false`): inline, choose the layout, apply it, then
dispatch on the mapper selector; an unrecognised selector prints an
error and returns early.  The second component is the selector error
message, if any. -/
def wrapperMap (ext : ExternalPasses) (layout mapper : String)
    (dev : Device) (p : WProgram) : WProgram × Option String :=
  let p1 := inline_ast p
  let lay : Option (Nat → Nat) :=
    if layout = "linear" then some (compute_basic_layout dev p1)
    else if layout = "eager" then some (ext.eager dev p1)
    else if layout = "bestfit" then some (ext.bestfit dev p1)
    else none
  match lay with
  | none => (p1, some "Error: invalid layout algorithm")
  | some l =>
    let p2 := apply_layout l dev p1
    if mapper = "swap" then
      (⟨p2.regSize, (map_onto_device dev p2.stmts).1⟩, none)
    else if mapper = "steiner" then (ext.steiner dev p2, none)
    else (p2, some "Error: invalid mapping algorithm")

/-! ### Circuit semantics

State vectors over the basis of bit assignments, with amplitudes in
ℚ[√2].  A state is a function from bit assignments to amplitudes; a
gate acts as a linear substitution.  The semantics of a general
`U(θ, φ, λ)` gate is parametric in an interpretation `uSem` of its
angle expressions as a 2×2 matrix; the development only ever needs
that `uSem` sends the mapper's Hadamard `U(pi/2, 0, pi)` to the
Hadamard matrix. -/

def QState : Type := (Nat → Bool) → Q2

/-- A 2×2 amplitude matrix. -/
structure Mat2 : Type where
  m00 : Q2
  m01 : Q2
  m10 : Q2
  m11 : Q2

/-- The Hadamard matrix `(1/√2) [[1, 1], [1, -1]]`. -/
def hadM : Mat2 := ⟨hcoef, hcoef, hcoef, -hcoef⟩

/-- Update one bit of a basis assignment. -/
def updBit (x : Nat → Bool) (q : Nat) (b : Bool) : Nat → Bool :=
  fun r => if r = q then b else x r

/-- The basis permutation a CNOT induces: target bit xored with the
control bit. -/
def cnotFlip (c t : Nat) (x : Nat → Bool) : Nat → Bool :=
  updBit x t (xor (x t) (x c))

/-- Apply a CNOT with control `c` and target `t`. -/
def applyCNOT (c t : Nat) (ψ : QState) : QState :=
  fun x => ψ (cnotFlip c t x)

/-- Apply a single-qubit gate with matrix `M` on qubit `q`. -/
def applyM (M : Mat2) (q : Nat) (ψ : QState) : QState :=
  fun x =>
    (if x q then M.m10 else M.m00) * ψ (updBit x q false) +
      (if x q then M.m11 else M.m01) * ψ (updBit x q true)

/-- The operator relabelling qubit `i` to qubit `f i` (for injective
`f`): the permutation operator of `f`. -/
def relabel (f : Nat → Nat) (ψ : QState) : QState :=
  fun x => ψ (fun i => x (f i))

/-- Semantics of one gate, parametric in the interpretation of
`U`-gate angle triples as 2×2 matrices. -/
def gateSem (uSem : Expr → Expr → Expr → Mat2) : Gate → QState → QState
  | Gate.cnot c t => applyCNOT c t
  | Gate.u th ph la q => applyM (uSem th ph la) q

/-- Semantics of a gate list, first gate applied first. -/
def circSem (uSem : Expr → Expr → Expr → Mat2) :
    List Gate → QState → QState
  | [] => id
  | g :: gs => circSem uSem gs ∘ gateSem uSem g

/-- The transposition of `i` and `j` on qubit labels. -/
def transp (i j : Nat) : Nat → Nat :=
  fun r => if r = i then j else if r = j then i else r

/-- The qubit-label permutation of a recorded swap list, later swaps
composed on the outside. -/
def swsFun : List (Nat × Nat) → Nat → Nat
  | [] => id
  | ij :: rest => swsFun rest ∘ transp ij.1 ij.2

/-- The total function a permutation map denotes on qubit labels:
stored value below `n`, identity elsewhere. -/
def pfun (m : PermMap) (n : Nat) : Nat → Nat :=
  fun k => if k < n then mval m k else k

/-- The inverse of `pfun m n` (by search below `n`). -/
def pinv (m : PermMap) (n : Nat) : Nat → Nat :=
  fun v =>
    if v < n then (((List.range n).find? (fun k => mval m k = v)).getD v)
    else v

/-! ### Basis and operator lemmas -/



@[simp] theorem updBit_same (x : Nat → Bool) (q : Nat) (b : Bool) :
    updBit x q b q = b := by simp [updBit]

theorem updBit_other {r q : Nat} (x : Nat → Bool) (b : Bool) (h : r ≠ q) :
    updBit x q b r = x r := by simp [updBit, h]

@[simp] theorem updBit_updBit (x : Nat → Bool) (q : Nat) (b b' : Bool) :
    updBit (updBit x q b) q b' = updBit x q b' := by
  funext r; by_cases hr : r = q <;> simp [updBit, hr]

theorem updBit_comm {q q' : Nat} (x : Nat → Bool) (b b' : Bool)
    (h : q ≠ q') :
    updBit (updBit x q b) q' b' = updBit (updBit x q' b') q b := by
  funext r
  by_cases h1 : r = q' <;> by_cases h2 : r = q <;>
    simp [updBit, h1, h2] at * <;> simp_all

theorem updBit_self_read (x : Nat → Bool) (q : Nat) :
    updBit x q (x q) = x := by
  funext r; by_cases hr : r = q <;> simp [updBit, hr]

theorem had_sandwich (c t : Nat) (h : c ≠ t) :
    applyM hadM t ∘ applyM hadM c ∘ applyCNOT t c ∘ applyM hadM t ∘
      applyM hadM c = applyCNOT c t := by
  have hc : ∀ (y : Nat → Bool) b, updBit y t b c = y c :=
    fun y b => updBit_other y b h
  have ht : ∀ (y : Nat → Bool) b, updBit y c b t = y t :=
    fun y b => updBit_other y b (Ne.symm h)
  have hcomm : ∀ (y : Nat → Bool) bt bc,
      updBit (updBit y t bt) c bc = updBit (updBit y c bc) t bt :=
    fun y bt bc => updBit_comm y bt bc (Ne.symm h)
  funext ψ x
  simp only [Function.comp_apply, applyM, applyCNOT, cnotFlip, hadM]
  simp only [hcomm, updBit_updBit, hc, ht, updBit_same]
  have hredc : updBit x c (x c) = x := updBit_self_read x c
  cases hxc : x c <;> cases hxt : x t <;> rw [hxc] at hredc <;>
    simp only [hxc, hxt, hredc, Bool.xor_false, Bool.xor_true,
      Bool.not_true, Bool.not_false, if_true, if_false, Bool.false_xor,
      Bool.true_xor] <;>
    apply Q2.ext_ab <;> simp <;> ring

/-! ### Permutation-map and path lemmas -/



theorem transp_comm (i j : Nat) : transp i j = transp j i := by
  funext r
  by_cases h1 : r = i <;> by_cases h2 : r = j <;> simp [transp, h1, h2] <;>
    simp_all

theorem cnot_cnot_cnot (a b : Nat) (h : a ≠ b) :
    applyCNOT a b ∘ applyCNOT b a ∘ applyCNOT a b = relabel (transp a b) := by
  funext ψ x
  simp only [Function.comp_apply, applyCNOT, relabel]
  apply congrArg ψ
  funext r
  by_cases hra : r = a <;> by_cases hrb : r = b <;>
    cases hxa : x a <;> cases hxb : x b <;>
    simp_all [cnotFlip, updBit, transp]

theorem relabel_comp (f g : Nat → Nat) :
    relabel g ∘ relabel f = relabel (g ∘ f) := rfl

theorem relabel_id : relabel id = id := rfl

theorem relabel_applyM {f : Nat → Nat} (hf : Function.Injective f)
    (M : Mat2) (q : Nat) :
    applyM M (f q) ∘ relabel f = relabel f ∘ applyM M q := by
  funext ψ x
  simp only [Function.comp_apply, applyM, relabel]
  have key : ∀ b, (fun i => (updBit x (f q) b) (f i)) =
      updBit (fun i => x (f i)) q b := by
    intro b; funext r
    by_cases hr : r = q
    · subst hr; simp [updBit]
    · have hfr : f r ≠ f q := fun e => hr (hf e)
      simp [updBit, hr, hfr]
  rw [key, key]

theorem relabel_applyCNOT {f : Nat → Nat} (hf : Function.Injective f)
    (c t : Nat) :
    applyCNOT (f c) (f t) ∘ relabel f = relabel f ∘ applyCNOT c t := by
  funext ψ x
  simp only [Function.comp_apply, applyCNOT, relabel]
  apply congrArg ψ
  funext r
  by_cases hr : r = t
  · subst hr; simp [cnotFlip, updBit]
  · have hfr : f r ≠ f t := fun e => hr (hf e)
    simp [cnotFlip, updBit, hr, hfr]

theorem circSem_nil (u : Expr → Expr → Expr → Mat2) :
    circSem u [] = id := rfl

theorem circSem_cons (u : Expr → Expr → Expr → Mat2) (g : Gate)
    (gs : List Gate) :
    circSem u (g :: gs) = circSem u gs ∘ gateSem u g := rfl

theorem circSem_append (u : Expr → Expr → Expr → Mat2)
    (l₁ l₂ : List Gate) :
    circSem u (l₁ ++ l₂) = circSem u l₂ ∘ circSem u l₁ := by
  induction l₁ with
  | nil => rfl
  | cons g gs ih => simp only [List.cons_append, circSem_cons, ih]; rfl

theorem circSem_wrap (u : Expr → Expr → Expr → Mat2) (g1 g3 : Gate)
    (mid : List Gate) :
    circSem u (g1 :: (mid ++ [g3])) =
      gateSem u g3 ∘ circSem u mid ∘ gateSem u g1 := by
  rw [circSem_cons, circSem_append]
  rfl

/-- The triple `(θ, φ, λ)` of the mapper's emitted Hadamards. -/
def hadArgs : Expr × Expr × Expr :=
  (Expr.div Expr.pi (Expr.int 2), Expr.int 0, Expr.pi)

theorem circSem_swapped_cnot {uSem : Expr → Expr → Expr → Mat2}
    (hU : uSem hadArgs.1 hadArgs.2.1 hadArgs.2.2 = hadM)
    (i j : Nat) (hij : i ≠ j) :
    circSem uSem (generate_swapped_cnot i j) = applyCNOT i j := by
  have hexp : circSem uSem (generate_swapped_cnot i j) =
      applyM hadM j ∘ applyM hadM i ∘ applyCNOT j i ∘ applyM hadM j ∘
        applyM hadM i := by
    simp only [generate_swapped_cnot, generate_hadamard, generate_cnot,
      circSem_cons, circSem_nil, gateSem]
    rw [show uSem (Expr.div Expr.pi (Expr.int 2)) (Expr.int 0) Expr.pi =
        hadM from hU]
    rfl
  rw [hexp]
  exact had_sandwich i j hij

theorem circSem_finalCnot {uSem : Expr → Expr → Expr → Mat2}
    (hU : uSem hadArgs.1 hadArgs.2.1 hadArgs.2.2 = hadM)
    (dev : Device) (i j : Nat) (hij : i ≠ j) :
    circSem uSem (finalCnot dev i j) = applyCNOT i j := by
  unfold finalCnot
  by_cases hc : dev.coupled i j
  · rw [if_pos hc]; rfl
  · rw [if_neg hc]
    exact circSem_swapped_cnot hU i j hij

theorem circSem_swapGates {uSem : Expr → Expr → Expr → Mat2}
    (hU : uSem hadArgs.1 hadArgs.2.1 hadArgs.2.2 = hadM)
    (dev : Device) (i j : Nat) (hij : i ≠ j) :
    circSem uSem (swapGates dev i j) = relabel (transp i j) := by
  unfold swapGates
  by_cases hc : dev.coupled i j
  · by_cases hc2 : dev.coupled j i
    · simp only [hc, hc2, if_true]
      have hlit : circSem uSem
          ([generate_cnot i j] ++ [generate_cnot j i] ++
            [generate_cnot i j]) =
          applyCNOT i j ∘ applyCNOT j i ∘ applyCNOT i j := rfl
      rw [hlit]
      exact cnot_cnot_cnot i j hij
    · simp only [hc, if_true, if_neg hc2]
      rw [show [generate_cnot i j] ++ generate_swapped_cnot j i ++
          [generate_cnot i j] = generate_cnot i j ::
            (generate_swapped_cnot j i ++ [generate_cnot i j]) from by
        simp]
      rw [circSem_wrap, circSem_swapped_cnot hU j i (Ne.symm hij)]
      exact cnot_cnot_cnot i j hij
  · simp only [if_neg hc]
    rw [show [generate_cnot j i] ++ generate_swapped_cnot i j ++
        [generate_cnot j i] = generate_cnot j i ::
          (generate_swapped_cnot i j ++ [generate_cnot j i]) from by
      simp]
    rw [circSem_wrap, circSem_swapped_cnot hU i j hij]
    have hfin : gateSem uSem (generate_cnot j i) ∘ applyCNOT i j ∘
        gateSem uSem (generate_cnot j i) = relabel (transp j i) :=
      cnot_cnot_cnot j i (Ne.symm hij)
    rw [hfin, transp_comm]



theorem mlook_append (l₁ l₂ : PermMap) (k : Nat) :
    mlook (l₁ ++ l₂) k =
      match mlook l₁ k with
      | some v => some v
      | none => mlook l₂ k := by
  induction l₁ with
  | nil => rfl
  | cons kv rest ih =>
    by_cases h : kv.1 = k <;> simp [mlook, h, ih]

theorem mlook_initPerm (n k : Nat) :
    mlook (initPerm n) k = if k < n then some k else none := by
  induction n with
  | zero => simp [initPerm, mlook]
  | succ n ih =>
    rw [initPerm, List.range_succ, List.map_append]
    rw [mlook_append]
    rw [show (List.range n).map (fun i => (i, i)) = initPerm n from rfl]
    rw [ih]
    by_cases h : k < n
    · simp [h, Nat.lt_succ_of_lt h]
    · by_cases h2 : k = n
      · subst h2
        simp [h, mlook, Nat.lt_succ_self]
      · have : ¬k < n + 1 := by omega
        simp [h, h2, mlook, this, Ne.symm h2]

theorem mlook_permSwap (m : PermMap) (i j k : Nat) :
    mlook (permSwap m i j) k =
      (mlook m k).map
        (fun v => if v = i then j else if v = j then i else v) := by
  induction m with
  | nil => rfl
  | cons kv rest ih =>
    by_cases h : kv.1 = k
    · simp [permSwap, mlook, h]
    · simp only [permSwap, mlook, h, if_false, List.map_cons]
      simpa [permSwap] using ih

theorem maccess_of_isSome {m : PermMap} {k : Nat}
    (h : (mlook m k).isSome) : maccess m k = (m, mval m k) := by
  unfold maccess mval
  cases hm : mlook m k with
  | none => rw [hm] at h; simp at h
  | some v => simp

/-- Value bijectivity of the permutation map on keys `0 .. n-1`:
every such key is present, and the stored values are a permutation of
`0 .. n-1`. -/
def permBij (m : PermMap) (n : Nat) : Prop :=
  (∀ k, k < n → (mlook m k).isSome) ∧
    ((List.range n).map (mval m)).Perm (List.range n)

instance (m : PermMap) (n : Nat) : Decidable (permBij m n) := by
  unfold permBij
  exact instDecidableAnd

/-- The internal invariant: `permBij` plus a bound on every stored
value (keys default-inserted by out-of-range references included). -/
def permGood (m : PermMap) (n : Nat) : Prop :=
  permBij m n ∧ ∀ kv ∈ m, kv.2 < n ∨ n = 0

theorem mval_initPerm {n k : Nat} (h : k < n) : mval (initPerm n) k = k := by
  unfold mval
  rw [mlook_initPerm]
  simp [h]

theorem permGood_init (n : Nat) : permGood (initPerm n) n := by
  refine ⟨⟨fun k hk => ?_, ?_⟩, fun kv hkv => ?_⟩
  · rw [mlook_initPerm]; simp [hk]
  · have h1 : (List.range n).map (mval (initPerm n)) =
        (List.range n).map id :=
      List.map_congr_left (fun k hk => mval_initPerm (List.mem_range.mp hk))
    rw [h1, List.map_id]
  · unfold initPerm at hkv
    simp at hkv
    obtain ⟨i, hi, rfl⟩ := hkv
    exact Or.inl hi



/-- Last element of a list, with a default for the empty list. -/
def lastD : List Nat → Nat → Nat
  | [], d => d
  | a :: l, _ => lastD l a

theorem lastD_concat (l : List Nat) (v d : Nat) :
    lastD (l ++ [v]) d = v := by
  induction l generalizing d with
  | nil => rfl
  | cons a l ih => exact ih a

theorem lastD_mem : ∀ {l : List Nat}, l ≠ [] → ∀ d : Nat, lastD l d ∈ l
  | [], h, _ => absurd rfl h
  | [_], _, _ => by simp [lastD]
  | a :: b :: l, _, d => by
    have hrec := lastD_mem (l := b :: l) (by simp) a
    rw [show lastD (a :: b :: l) d = lastD (b :: l) a from rfl]
    exact List.mem_cons_of_mem a hrec

/-- Consecutive symmetric-closure adjacency along `a :: l`. -/
def chainAdj (d : Device) : Nat → List Nat → Prop
  | _, [] => True
  | a, b :: l => symAdj d a b = true ∧ chainAdj d b l

theorem chainAdj_concat {d : Device} :
    ∀ {l : List Nat} {a v : Nat}, chainAdj d a l →
      symAdj d (lastD l a) v = true → chainAdj d a (l ++ [v])
  | [], _, _, _, hs => ⟨hs, trivial⟩
  | _ :: _, _, _, hc, hs =>
    ⟨hc.1, chainAdj_concat hc.2 hs⟩

/-- The BFS frontier invariant: the element `(u, p)` records a valid
simple path from `src` to `u` through visited nodes of the device. -/
structure GoodPath (d : Device) (src : Nat) (vis : List Nat)
    (e : Nat × List Nat) : Prop where
  chain : chainAdj d src e.2
  last : lastD e.2 src = e.1
  nodup : (src :: e.2).Nodup
  sub : ∀ v ∈ src :: e.2, v ∈ vis
  bound : ∀ v ∈ e.2, v < d.qubits

theorem GoodPath.mono {d : Device} {src : Nat} {vis vis' : List Nat}
    {e : Nat × List Nat} (h : GoodPath d src vis e)
    (hsub : ∀ w ∈ vis, w ∈ vis') : GoodPath d src vis' e :=
  ⟨h.chain, h.last, h.nodup, fun v hv => hsub v (h.sub v hv), h.bound⟩

theorem expandNode_spec (d : Device) (src u : Nat) (p : List Nat) :
    ∀ (nbrs vis : List Nat), GoodPath d src vis (u, p) →
      (∀ v ∈ nbrs, symAdj d u v = true ∧ v < d.qubits) →
      (∀ e ∈ (expandNode u p nbrs vis).1,
        GoodPath d src (expandNode u p nbrs vis).2 e) ∧
      (∀ w ∈ vis, w ∈ (expandNode u p nbrs vis).2)
  | [], vis, _, _ => by
    refine ⟨?_, ?_⟩ <;> simp [expandNode]
  | v :: vs, vis, hg, hn => by
    by_cases hv : v ∈ vis
    · rw [show expandNode u p (v :: vs) vis = expandNode u p vs vis from by
        simp [expandNode, hv]]
      exact expandNode_spec d src u p vs vis hg
        (fun w hw => hn w (List.mem_cons_of_mem _ hw))
    · have hg' : GoodPath d src (v :: vis) (u, p) :=
        hg.mono (fun w hw => List.mem_cons_of_mem _ hw)
      have ih := expandNode_spec d src u p vs (v :: vis) hg'
        (fun w hw => hn w (List.mem_cons_of_mem _ hw))
      rw [show expandNode u p (v :: vs) vis =
          ((v, p ++ [v]) :: (expandNode u p vs (v :: vis)).1,
            (expandNode u p vs (v :: vis)).2) from by
        simp [expandNode, hv]]
      refine ⟨?_, ?_⟩
      · intro e he
        rcases List.mem_cons.mp he with rfl | he'
        · have hlast : lastD p src = u := hg.last
          refine ⟨?_, ?_, ?_, ?_, ?_⟩
          · exact chainAdj_concat hg.chain
              (by rw [hlast]; exact (hn v (List.mem_cons_self _ _)).1)
          · exact lastD_concat p v src
          · have hvp : v ∉ src :: p := fun hc => hv (hg.sub v hc)
            rw [show src :: (p ++ [v]) = (src :: p) ++ [v] from rfl]
            rw [List.nodup_append]
            exact ⟨hg.nodup, List.nodup_singleton v,
              fun w hw hw' => by
                rcases List.mem_singleton.mp hw' with rfl
                exact hvp hw⟩
          · intro w hw
            rw [show src :: (p ++ [v]) = (src :: p) ++ [v] from rfl]
              at hw
            rcases List.mem_append.mp hw with hw1 | hw2
            · exact ih.2 w (List.mem_cons_of_mem _ (hg.sub w hw1))
            · rw [List.mem_singleton.mp hw2]
              exact ih.2 v (List.mem_cons_self _ _)
          · intro w hw
            rcases List.mem_append.mp hw with hw1 | hw2
            · exact hg.bound w hw1
            · rw [List.mem_singleton.mp hw2]
              exact (hn v (List.mem_cons_self _ _)).2
        · exact ih.1 e he'
      · intro w hw
        exact ih.2 w (List.mem_cons_of_mem _ hw)

theorem expandLayer_spec (d : Device) (src : Nat) :
    ∀ (frontier : List (Nat × List Nat)) (vis : List Nat),
      (∀ e ∈ frontier, GoodPath d src vis e) →
      (∀ e ∈ (expandLayer d frontier vis).1,
        GoodPath d src (expandLayer d frontier vis).2 e) ∧
      (∀ w ∈ vis, w ∈ (expandLayer d frontier vis).2)
  | [], vis, _ => by
    refine ⟨?_, ?_⟩ <;> simp [expandLayer]
  | e :: rest, vis, hg => by
    have hnb : ∀ v ∈ neighbors d e.1,
        symAdj d e.1 v = true ∧ v < d.qubits := by
      intro v hv
      unfold neighbors at hv
      rw [List.mem_filter] at hv
      exact ⟨hv.2, List.mem_range.mp hv.1⟩
    have hge : GoodPath d src vis (e.1, e.2) := by
      have := hg e (List.mem_cons_self _ _); exact this
    have h1 := expandNode_spec d src e.1 e.2 (neighbors d e.1) vis hge hnb
    have hrest : ∀ e' ∈ rest,
        GoodPath d src (expandNode e.1 e.2 (neighbors d e.1) vis).2 e' :=
      fun e' he' => (hg e' (List.mem_cons_of_mem _ he')).mono h1.2
    have h2 := expandLayer_spec d src rest
      (expandNode e.1 e.2 (neighbors d e.1) vis).2 hrest
    rw [show expandLayer d (e :: rest) vis =
        ((expandNode e.1 e.2 (neighbors d e.1) vis).1 ++
          (expandLayer d rest
            (expandNode e.1 e.2 (neighbors d e.1) vis).2).1,
          (expandLayer d rest
            (expandNode e.1 e.2 (neighbors d e.1) vis).2).2) from rfl]
    refine ⟨?_, ?_⟩
    · intro e' he'
      rcases List.mem_append.mp he' with h | h
      · exact (h1.1 e' h).mono h2.2
      · exact h2.1 e' h
    · intro w hw
      exact h2.2 w (h1.2 w hw)

theorem bfsSearch_spec (d : Device) (src dst : Nat) :
    ∀ (fuel : Nat) (vis : List Nat) (frontier : List (Nat × List Nat)),
      (∀ e ∈ frontier, GoodPath d src vis e) →
      bfsSearch d dst fuel vis frontier = [] ∨
      (chainAdj d src (bfsSearch d dst fuel vis frontier) ∧
        lastD (bfsSearch d dst fuel vis frontier) src = dst ∧
        (src :: bfsSearch d dst fuel vis frontier).Nodup ∧
        ∀ v ∈ bfsSearch d dst fuel vis frontier, v < d.qubits)
  | 0, vis, frontier, _ => Or.inl rfl
  | fuel + 1, vis, frontier, hg => by
    cases hfind : frontier.find? (fun e => e.1 = dst) with
    | some e =>
      have hres : bfsSearch d dst (fuel + 1) vis frontier = e.2 := by
        simp [bfsSearch, hfind]
      rw [hres]
      right
      have hmem : e ∈ frontier := List.mem_of_find?_eq_some hfind
      have hpred : e.1 = dst := by
        have hp := List.find?_some hfind
        exact of_decide_eq_true hp
      have hge := hg e hmem
      exact ⟨hge.chain, by rw [hge.last]; exact hpred, hge.nodup,
        hge.bound⟩
    | none =>
      by_cases hemp : (expandLayer d frontier vis).1.isEmpty
      · have hres : bfsSearch d dst (fuel + 1) vis frontier = [] := by
          simp [bfsSearch, hfind, hemp]
        rw [hres]
        exact Or.inl rfl
      · have hres : bfsSearch d dst (fuel + 1) vis frontier =
            bfsSearch d dst fuel (expandLayer d frontier vis).2
              (expandLayer d frontier vis).1 := by
          simp [bfsSearch, hfind, hemp]
        rw [hres]
        exact bfsSearch_spec d src dst fuel
          (expandLayer d frontier vis).2 (expandLayer d frontier vis).1
          (expandLayer_spec d src frontier vis hg).1

theorem shortest_path_spec (d : Device) (src dst : Nat) :
    d.shortest_path src dst = [] ∨
    (chainAdj d src (d.shortest_path src dst) ∧
      lastD (d.shortest_path src dst) src = dst ∧
      (src :: d.shortest_path src dst).Nodup ∧
      ∀ v ∈ d.shortest_path src dst, v < d.qubits) := by
  unfold Device.shortest_path
  by_cases h : src = dst
  · rw [if_pos h]; exact Or.inl rfl
  · rw [if_neg h]
    apply bfsSearch_spec d src dst (d.qubits + 1) [src] [(src, [])]
    intro e he
    rw [List.mem_singleton] at he
    subst he
    exact ⟨trivial, rfl, List.nodup_singleton src, fun v hv => hv,
      fun v hv => absurd hv (List.not_mem_nil v)⟩



theorem transp_eq_left (i j : Nat) : transp i j i = j := by
  simp [transp]

theorem transp_eq_of_ne {i j r : Nat} (h1 : r ≠ i) (h2 : r ≠ j) :
    transp i j r = r := by
  simp [transp, h1, h2]

theorem transp_involutive (i j : Nat) :
    ∀ r, transp i j (transp i j r) = r := by
  intro r
  unfold transp
  by_cases h1 : r = i
  · subst h1
    by_cases h2 : j = r <;> simp [h2]
  · by_cases h2 : r = j
    · subst h2
      simp [h1]
    · simp [h1, h2]

theorem transp_injective (i j : Nat) : Function.Injective (transp i j) :=
  Function.LeftInverse.injective (transp_involutive i j)

theorem transp_lt {i j n r : Nat} (hi : i < n) (hj : j < n) (hr : r < n) :
    transp i j r < n := by
  unfold transp
  split
  · exact hj
  · split
    · exact hi
    · exact hr

theorem nodup_map_inj {f : Nat → Nat} :
    ∀ {l : List Nat}, (l.map f).Nodup →
      ∀ a ∈ l, ∀ b ∈ l, f a = f b → a = b
  | [], _, a, ha, _, _, _ => absurd ha (List.not_mem_nil a)
  | x :: xs, h, a, ha, b, hb, hab => by
    rw [List.map_cons, List.nodup_cons] at h
    rcases List.mem_cons.mp ha with rfl | ha' <;>
      rcases List.mem_cons.mp hb with rfl | hb'
    · rfl
    · exact absurd (hab ▸ List.mem_map_of_mem f hb') h.1
    · exact absurd (hab ▸ List.mem_map_of_mem f ha') (by
        intro hc; exact h.1 hc)
    · exact nodup_map_inj h.2 a ha' b hb' hab

theorem map_transp_range_perm {i j n : Nat} (hi : i < n) (hj : j < n) :
    ((List.range n).map (transp i j)).Perm (List.range n) := by
  rw [List.perm_ext_iff_of_nodup
    ((List.nodup_range n).map (transp_injective i j)) (List.nodup_range n)]
  intro v
  constructor
  · intro hv
    obtain ⟨w, hw, rfl⟩ := List.mem_map.mp hv
    exact List.mem_range.mpr (transp_lt hi hj (List.mem_range.mp hw))
  · intro hv
    refine List.mem_map.mpr ⟨transp i j v, ?_, transp_involutive i j v⟩
    exact List.mem_range.mpr (transp_lt hi hj (List.mem_range.mp hv))

theorem mlook_mem : ∀ {m : PermMap} {k v : Nat},
    mlook m k = some v → (k, v) ∈ m
  | [], k, v, h => by simp [mlook] at h
  | kv :: rest, k, v, h => by
    by_cases hk : kv.1 = k
    · rw [mlook, if_pos hk] at h
      injection h with hv
      cases kv with
      | mk a b =>
        cases hk
        cases hv
        exact List.mem_cons_self _ _
    · rw [mlook, if_neg hk] at h
      exact List.mem_cons_of_mem _ (mlook_mem h)

theorem mval_lt {m : PermMap} {n : Nat} (h : permGood m n) (hn : 0 < n)
    (k : Nat) : mval m k < n := by
  cases hm : mlook m k with
  | none => unfold mval; rw [hm]; exact hn
  | some v =>
    have hv := h.2 (k, v) (mlook_mem hm)
    unfold mval
    rw [hm]
    rcases hv with hv | hv
    · exact hv
    · omega

theorem permGood_maccess {m : PermMap} {n : Nat} (h : permGood m n)
    (k : Nat) : permGood (maccess m k).1 n := by
  unfold maccess
  cases hm : mlook m k with
  | some v => exact h
  | none =>
    have hpres : ∀ k', k' < n → (mlook (m ++ [(k, 0)]) k').isSome := by
      intro k' hk'
      obtain ⟨v', hv'⟩ := Option.isSome_iff_exists.mp (h.1.1 k' hk')
      rw [mlook_append, hv']
      rfl
    have hvals : ∀ k', k' < n → mval (m ++ [(k, 0)]) k' = mval m k' := by
      intro k' hk'
      obtain ⟨v', hv'⟩ := Option.isSome_iff_exists.mp (h.1.1 k' hk')
      unfold mval
      rw [mlook_append, hv']
    refine ⟨⟨hpres, ?_⟩, ?_⟩
    · have : (List.range n).map (mval (m ++ [(k, 0)])) =
          (List.range n).map (mval m) :=
        List.map_congr_left (fun k' hk' => hvals k' (List.mem_range.mp hk'))
      rw [this]
      exact h.1.2
    · intro kv hkv
      rcases List.mem_append.mp hkv with hkv | hkv
      · exact h.2 kv hkv
      · rcases List.mem_singleton.mp hkv with rfl
        rcases Nat.eq_zero_or_pos n with hn | hn
        · exact Or.inr hn
        · exact Or.inl hn

theorem mval_permSwap_of_isSome {m : PermMap} {k : Nat} (i j : Nat)
    (h : (mlook m k).isSome) :
    mval (permSwap m i j) k = transp i j (mval m k) := by
  obtain ⟨v, hv⟩ := Option.isSome_iff_exists.mp h
  unfold mval
  rw [mlook_permSwap, hv]
  rfl

theorem permGood_permSwap {m : PermMap} {n i j : Nat} (hi : i < n)
    (hj : j < n) (h : permGood m n) : permGood (permSwap m i j) n := by
  refine ⟨⟨?_, ?_⟩, ?_⟩
  · intro k hk
    rw [mlook_permSwap]
    obtain ⟨v, hv⟩ := Option.isSome_iff_exists.mp (h.1.1 k hk)
    rw [hv]
    rfl
  · have h1 : (List.range n).map (mval (permSwap m i j)) =
        ((List.range n).map (mval m)).map (transp i j) := by
      rw [List.map_map]
      exact List.map_congr_left (fun k hk =>
        mval_permSwap_of_isSome i j (h.1.1 k (List.mem_range.mp hk)))
    rw [h1]
    exact (h.1.2.map (transp i j)).trans (map_transp_range_perm hi hj)
  · intro kv hkv
    unfold permSwap at hkv
    obtain ⟨kv2, hkv2, rfl⟩ := List.mem_map.mp hkv
    left
    show (if kv2.2 = i then j else if kv2.2 = j then i else kv2.2) < n
    by_cases h1 : kv2.2 = i
    · rw [if_pos h1]
      exact hj
    · rw [if_neg h1]
      by_cases h2 : kv2.2 = j
      · rw [if_pos h2]
        exact hi
      · rw [if_neg h2]
        rcases h.2 kv2 hkv2 with hv2 | hv2
        · exact hv2
        · exfalso
          omega

theorem pfun_permSwap {m : PermMap} {n i j : Nat} (hi : i < n)
    (hj : j < n) (h : permGood m n) :
    pfun (permSwap m i j) n = transp i j ∘ pfun m n := by
  funext k
  simp only [pfun, Function.comp_apply]
  by_cases hk : k < n
  · simp only [hk, if_true]
    exact mval_permSwap_of_isSome i j (h.1.1 k hk)
  · simp only [hk, if_false]
    exact (transp_eq_of_ne (by omega) (by omega)).symm

theorem foldl_permSwap_spec {n : Nat} :
    ∀ (sws : List (Nat × Nat)) (m : PermMap), permGood m n →
      (∀ ij ∈ sws, ij.1 < n ∧ ij.2 < n) →
      permGood (sws.foldl (fun mm ij => permSwap mm ij.1 ij.2) m) n ∧
      pfun (sws.foldl (fun mm ij => permSwap mm ij.1 ij.2) m) n =
        swsFun sws ∘ pfun m n
  | [], m, hm, _ => ⟨hm, rfl⟩
  | ij :: rest, m, hm, hb => by
    have hbij := hb ij (List.mem_cons_self _ _)
    have hm1 : permGood (permSwap m ij.1 ij.2) n :=
      permGood_permSwap hbij.1 hbij.2 hm
    have ih := foldl_permSwap_spec rest (permSwap m ij.1 ij.2) hm1
      (fun ij' h' => hb ij' (List.mem_cons_of_mem _ h'))
    refine ⟨by simpa using ih.1, ?_⟩
    rw [show (ij :: rest).foldl (fun mm ij => permSwap mm ij.1 ij.2) m =
        rest.foldl (fun mm ij => permSwap mm ij.1 ij.2)
          (permSwap m ij.1 ij.2) from rfl]
    rw [ih.2, pfun_permSwap hbij.1 hbij.2 hm]
    rfl

theorem pfun_injective {m : PermMap} {n : Nat} (h : permGood m n) :
    Function.Injective (pfun m n) := by
  have hvals : ∀ k, k < n → pfun m n k = mval m k := by
    intro k hk
    simp [pfun, hk]
  have hnd : ((List.range n).map (mval m)).Nodup :=
    h.1.2.nodup_iff.mpr (List.nodup_range n)
  intro k1 k2 heq
  by_cases h1 : k1 < n <;> by_cases h2 : k2 < n
  · rw [hvals k1 h1, hvals k2 h2] at heq
    exact nodup_map_inj hnd k1 (List.mem_range.mpr h1) k2
      (List.mem_range.mpr h2) heq
  · exfalso
    rw [hvals k1 h1] at heq
    have hlt : mval m k1 < n := mval_lt h (by omega) k1
    rw [show pfun m n k2 = k2 from by simp [pfun, h2]] at heq
    omega
  · exfalso
    rw [hvals k2 h2] at heq
    have hlt : mval m k2 < n := mval_lt h (by omega) k2
    rw [show pfun m n k1 = k1 from by simp [pfun, h1]] at heq
    omega
  · rw [show pfun m n k1 = k1 from by simp [pfun, h1],
      show pfun m n k2 = k2 from by simp [pfun, h2]] at heq
    exact heq

/-! ### Walk lemmas -/


theorem symAdj_comm (d : Device) (i j : Nat) : symAdj d i j = symAdj d j i := by
  unfold symAdj
  exact Bool.or_comm _ _

theorem walkCnot_nil (dev : Device) (tgt i : Nat) :
    walkCnot dev tgt i [] = ([], []) := rfl

theorem walkCnot_cons_tgt {j tgt : Nat} (h : j = tgt) (dev : Device)
    (i : Nat) (rest : List Nat) :
    walkCnot dev tgt i (j :: rest) = (finalCnot dev i j, []) := by
  simp only [walkCnot]
  rw [if_pos h]

theorem walkCnot_cons_skip {j tgt i : Nat} (h1 : j ≠ tgt) (h2 : j = i)
    (dev : Device) (rest : List Nat) :
    walkCnot dev tgt i (j :: rest) = walkCnot dev tgt i rest := by
  simp only [walkCnot]
  rw [if_neg h1, if_neg (show ¬j ≠ i from fun hne => hne h2)]

theorem walkCnot_cons_swap {j tgt i : Nat} (h1 : j ≠ tgt) (h2 : j ≠ i)
    (dev : Device) (rest : List Nat) :
    walkCnot dev tgt i (j :: rest) =
      (swapGates dev i j ++ (walkCnot dev tgt j rest).1,
        (i, j) :: (walkCnot dev tgt j rest).2) := by
  simp only [walkCnot]
  rw [if_neg h1, if_pos h2]

theorem swapped_cnot_cnot_mem {i j c t : Nat}
    (h : Gate.cnot c t ∈ generate_swapped_cnot i j) : c = j ∧ t = i := by
  simp [generate_swapped_cnot, generate_hadamard, generate_cnot] at h
  exact h

theorem finalCnot_cnot_mem {dev : Device} {i j c t : Nat}
    (h : Gate.cnot c t ∈ finalCnot dev i j) :
    (c = i ∧ t = j) ∨ (c = j ∧ t = i) := by
  unfold finalCnot at h
  by_cases hc : dev.coupled i j
  · rw [if_pos hc] at h
    simp [generate_cnot] at h
    exact Or.inl h
  · rw [if_neg hc] at h
    exact Or.inr (swapped_cnot_cnot_mem h)

theorem swapGates_cnot_mem {dev : Device} {i j c t : Nat}
    (h : Gate.cnot c t ∈ swapGates dev i j) :
    (c = i ∧ t = j) ∨ (c = j ∧ t = i) := by
  unfold swapGates at h
  by_cases hc : dev.coupled i j
  · simp only [hc, if_true] at h
    rcases List.mem_append.mp h with h1 | h1
    · rcases List.mem_append.mp h1 with h2 | h2
      · simp [generate_cnot] at h2
        exact Or.inl h2
      · by_cases hc2 : dev.coupled j i
        · rw [if_pos hc2] at h2
          simp [generate_cnot] at h2
          exact Or.inr h2
        · rw [if_neg hc2] at h2
          exact Or.inl (swapped_cnot_cnot_mem h2)
    · simp [generate_cnot] at h1
      exact Or.inl h1
  · simp only [hc, if_false, Bool.false_eq_true] at h
    rcases List.mem_append.mp h with h1 | h1
    · rcases List.mem_append.mp h1 with h2 | h2
      · simp [generate_cnot] at h2
        exact Or.inr h2
      · exact Or.inr (swapped_cnot_cnot_mem h2)
    · simp [generate_cnot] at h1
      exact Or.inr h1

theorem walkCnot_local (dev : Device) (tgt : Nat) :
    ∀ (chain : List Nat) (i : Nat), chainAdj dev i chain →
      ∀ c t, Gate.cnot c t ∈ (walkCnot dev tgt i chain).1 →
        symAdj dev c t = true
  | [], _, _, c, t, hmem => by simp [walkCnot_nil] at hmem
  | j :: rest, i, hchain, c, t, hmem => by
    by_cases hj : j = tgt
    · rw [walkCnot_cons_tgt hj] at hmem
      rcases finalCnot_cnot_mem hmem with ⟨rfl, rfl⟩ | ⟨rfl, rfl⟩
      · exact hchain.1
      · rw [symAdj_comm]
        exact hchain.1
    · by_cases hii : j = i
      · rw [walkCnot_cons_skip hj hii] at hmem
        exact walkCnot_local dev tgt rest i (hii ▸ hchain.2) c t hmem
      · rw [walkCnot_cons_swap hj hii] at hmem
        rcases List.mem_append.mp hmem with h1 | h1
        · rcases swapGates_cnot_mem h1 with ⟨rfl, rfl⟩ | ⟨rfl, rfl⟩
          · exact hchain.1
          · rw [symAdj_comm]
            exact hchain.1
        · exact walkCnot_local dev tgt rest j hchain.2 c t h1

theorem walkCnot_sws_bound (dev : Device) (tgt n : Nat) :
    ∀ (chain : List Nat) (i : Nat), (∀ v ∈ chain, v < n) → i < n →
      ∀ ij ∈ (walkCnot dev tgt i chain).2, ij.1 < n ∧ ij.2 < n
  | [], _, _, _, ij, hmem => by simp [walkCnot_nil] at hmem
  | j :: rest, i, hb, hi, ij, hmem => by
    have hjn : j < n := hb j (List.mem_cons_self _ _)
    have hb' : ∀ v ∈ rest, v < n :=
      fun v hv => hb v (List.mem_cons_of_mem _ hv)
    by_cases hj : j = tgt
    · rw [walkCnot_cons_tgt hj] at hmem
      simp at hmem
    · by_cases hii : j = i
      · rw [walkCnot_cons_skip hj hii] at hmem
        exact walkCnot_sws_bound dev tgt n rest i hb' hi ij hmem
      · rw [walkCnot_cons_swap hj hii] at hmem
        rcases List.mem_cons.mp hmem with rfl | h1
        · exact ⟨hi, hjn⟩
        · exact walkCnot_sws_bound dev tgt n rest j hb' hjn ij h1

theorem walkCnot_sem {uSem : Expr → Expr → Expr → Mat2}
    (hU : uSem hadArgs.1 hadArgs.2.1 hadArgs.2.2 = hadM) (dev : Device)
    (tgt : Nat) :
    ∀ (chain : List Nat) (i : Nat), (i :: chain).Nodup → chain ≠ [] →
      lastD chain i = tgt →
      circSem uSem (walkCnot dev tgt i chain).1 =
        relabel (swsFun (walkCnot dev tgt i chain).2) ∘ applyCNOT i tgt
  | [], _, _, hne, _ => absurd rfl hne
  | j :: rest, i, hnd, _, hlast => by
    have hij : i ≠ j := by
      have hnm : i ∉ j :: rest := (List.nodup_cons.mp hnd).1
      intro hc
      exact hnm (hc ▸ List.mem_cons_self _ _)
    by_cases hrq : rest = []
    · subst hrq
      have hj : j = tgt := hlast
      rw [walkCnot_cons_tgt hj]
      rw [show swsFun ([] : List (Nat × Nat)) = id from rfl, relabel_id]
      rw [circSem_finalCnot hU dev i j hij, hj]
      rfl
    · have hlast' : lastD rest j = tgt := hlast
      have htgt_mem : tgt ∈ rest := hlast' ▸ lastD_mem hrq j
      have hj : j ≠ tgt := by
        intro hc
        exact (List.nodup_cons.mp ((List.nodup_cons.mp hnd).2)).1
          (hc ▸ htgt_mem)
      have hti : tgt ≠ i := by
        intro hc
        exact (List.nodup_cons.mp hnd).1
          (hc ▸ List.mem_cons_of_mem _ htgt_mem)
      have htj : tgt ≠ j := fun hc => hj (hc.symm)
      rw [walkCnot_cons_swap hj (fun hc => hij hc.symm)]
      have hih := walkCnot_sem hU dev tgt rest j
        ((List.nodup_cons.mp hnd).2) hrq hlast'
      rw [show ((swapGates dev i j ++ (walkCnot dev tgt j rest).1,
          (i, j) :: (walkCnot dev tgt j rest).2) :
            List Gate × List (Nat × Nat)).1 =
          swapGates dev i j ++ (walkCnot dev tgt j rest).1 from rfl]
      rw [circSem_append, hih, circSem_swapGates hU dev i j hij]
      have hconj : applyCNOT j tgt ∘ relabel (transp i j) =
          relabel (transp i j) ∘ applyCNOT i tgt := by
        have h1 := relabel_applyCNOT (transp_injective i j) i tgt
        rw [transp_eq_left, transp_eq_of_ne hti htj] at h1
        exact h1
      rw [Function.comp_assoc, hconj, ← Function.comp_assoc, relabel_comp]
      rfl

/-! ### Run-level lemmas -/


/-- Well-formedness of a gate for an `n`-qubit device: every reference
offset lies in `0 .. n-1` (the spec's §3 data model for qubit
indices). -/
def gateWF (n : Nat) : Gate → Prop
  | Gate.cnot c t => c < n ∧ t < n
  | Gate.u _ _ _ q => q < n

instance (n : Nat) (g : Gate) : Decidable (gateWF n g) := by
  cases g <;> simp only [gateWF] <;> infer_instance

theorem maccess_wf {m : PermMap} {n k : Nat} (h : permGood m n)
    (hk : k < n) : maccess m k = (m, mval m k) :=
  maccess_of_isSome (h.1.1 k hk)

theorem maccess_snd_lt {m : PermMap} {n : Nat} (h : permGood m n)
    (hn : 0 < n) (k : Nat) : (maccess m k).2 < n := by
  unfold maccess
  cases hm : mlook m k with
  | none => exact hn
  | some v =>
    have : mval m k < n := mval_lt h hn k
    unfold mval at this
    rw [hm] at this
    exact this

theorem processStmt_u (dev : Device) (m : PermMap)
    (th ph la : Expr) (q0 : Nat) :
    processStmt dev m (Gate.u th ph la q0) =
      ([Gate.u th ph la (maccess m q0).2], (maccess m q0).1, []) := rfl

theorem processStmt_cnot_none (dev : Device) (m : PermMap) (c0 t0 : Nat)
    (h : (dev.shortest_path (maccess m c0).2
        (maccess (maccess m c0).1 t0).2).isEmpty = true) :
    processStmt dev m (Gate.cnot c0 t0) =
      ([Gate.cnot (maccess m c0).2 (maccess (maccess m c0).1 t0).2],
        (maccess (maccess m c0).1 t0).1,
        [((maccess m c0).2, (maccess (maccess m c0).1 t0).2)]) := by
  simp [processStmt, replaceCnot, h]

theorem processStmt_cnot_some (dev : Device) (m : PermMap) (c0 t0 : Nat)
    (h : ¬(dev.shortest_path (maccess m c0).2
        (maccess (maccess m c0).1 t0).2).isEmpty = true) :
    processStmt dev m (Gate.cnot c0 t0) =
      ((walkCnot dev (maccess (maccess m c0).1 t0).2 (maccess m c0).2
          (dev.shortest_path (maccess m c0).2
            (maccess (maccess m c0).1 t0).2)).1,
        (walkCnot dev (maccess (maccess m c0).1 t0).2 (maccess m c0).2
          (dev.shortest_path (maccess m c0).2
            (maccess (maccess m c0).1 t0).2)).2.foldl
          (fun mm ij => permSwap mm ij.1 ij.2)
          (maccess (maccess m c0).1 t0).1,
        []) := by
  simp [processStmt, replaceCnot, h]

theorem runStmts_cons (dev : Device) (m : PermMap) (s : Gate)
    (rest : List Gate) :
    runStmts dev m (s :: rest) =
      ((processStmt dev m s).1 ++
        (runStmts dev (processStmt dev m s).2.1 rest).1,
       (runStmts dev (processStmt dev m s).2.1 rest).2.1,
       (processStmt dev m s).2.2 ++
        (runStmts dev (processStmt dev m s).2.1 rest).2.2) := rfl

/-- The facts `shortest_path_spec` yields for a nonempty path. -/
theorem shortest_path_nonempty {dev : Device} {src dst : Nat}
    (h : dev.shortest_path src dst ≠ []) :
    chainAdj dev src (dev.shortest_path src dst) ∧
      lastD (dev.shortest_path src dst) src = dst ∧
      (src :: dev.shortest_path src dst).Nodup ∧
      ∀ v ∈ dev.shortest_path src dst, v < dev.qubits := by
  rcases shortest_path_spec dev src dst with he | hs
  · exact absurd he h
  · exact hs

theorem permGood_processStmt (dev : Device) (s : Gate) (m : PermMap)
    (h : permGood m dev.qubits) :
    permGood (processStmt dev m s).2.1 dev.qubits := by
  cases s with
  | u th ph la q0 =>
    rw [processStmt_u]
    exact permGood_maccess h q0
  | cnot c0 t0 =>
    have h1 : permGood (maccess m c0).1 dev.qubits := permGood_maccess h c0
    have h2 : permGood (maccess (maccess m c0).1 t0).1 dev.qubits :=
      permGood_maccess h1 t0
    by_cases hemp : (dev.shortest_path (maccess m c0).2
        (maccess (maccess m c0).1 t0).2).isEmpty = true
    · rw [processStmt_cnot_none dev m c0 t0 hemp]
      exact h2
    · rw [processStmt_cnot_some dev m c0 t0 hemp]
      have hne : dev.shortest_path (maccess m c0).2
          (maccess (maccess m c0).1 t0).2 ≠ [] := by
        intro hc
        rw [hc] at hemp
        exact hemp rfl
      obtain ⟨hchain, hlast, hnd, hbnd⟩ := shortest_path_nonempty hne
      have hn : 0 < dev.qubits := by
        cases hp : dev.shortest_path (maccess m c0).2
            (maccess (maccess m c0).1 t0).2 with
        | nil => exact absurd hp hne
        | cons v vs =>
          have hv : v < dev.qubits := by
            rw [hp] at hbnd
            exact hbnd v (List.mem_cons_self _ _)
          omega
      exact (foldl_permSwap_spec _ _ h2
        (walkCnot_sws_bound dev _ _ _ _ hbnd
          (maccess_snd_lt h hn c0))).1



theorem runStmts_u_step (dev : Device) (m : PermMap) (th ph la : Expr)
    (q0 : Nat) (rest : List Gate) (hq : (mlook m q0).isSome) :
    runStmts dev m (Gate.u th ph la q0 :: rest) =
      (Gate.u th ph la (mval m q0) :: (runStmts dev m rest).1,
        (runStmts dev m rest).2.1, (runStmts dev m rest).2.2) := by
  rw [runStmts_cons, processStmt_u, maccess_of_isSome hq]
  rfl

theorem runStmts_cnot_none_step (dev : Device) (m : PermMap)
    (c0 t0 : Nat) (rest : List Gate) (hc : (mlook m c0).isSome)
    (ht : (mlook m t0).isSome)
    (he : dev.shortest_path (mval m c0) (mval m t0) = []) :
    runStmts dev m (Gate.cnot c0 t0 :: rest) =
      (Gate.cnot (mval m c0) (mval m t0) :: (runStmts dev m rest).1,
        (runStmts dev m rest).2.1,
        (mval m c0, mval m t0) :: (runStmts dev m rest).2.2) := by
  rw [runStmts_cons]
  rw [processStmt_cnot_none dev m c0 t0 (by
    rw [maccess_of_isSome hc, maccess_of_isSome ht]
    rw [he]
    rfl)]
  rw [maccess_of_isSome hc, maccess_of_isSome ht]
  rfl

theorem runStmts_cnot_some_step (dev : Device) (m : PermMap)
    (c0 t0 : Nat) (rest : List Gate) (hc : (mlook m c0).isSome)
    (ht : (mlook m t0).isSome)
    (hne : dev.shortest_path (mval m c0) (mval m t0) ≠ []) :
    runStmts dev m (Gate.cnot c0 t0 :: rest) =
      ((walkCnot dev (mval m t0) (mval m c0)
          (dev.shortest_path (mval m c0) (mval m t0))).1 ++
        (runStmts dev
          ((walkCnot dev (mval m t0) (mval m c0)
            (dev.shortest_path (mval m c0) (mval m t0))).2.foldl
            (fun mm ij => permSwap mm ij.1 ij.2) m) rest).1,
       (runStmts dev
          ((walkCnot dev (mval m t0) (mval m c0)
            (dev.shortest_path (mval m c0) (mval m t0))).2.foldl
            (fun mm ij => permSwap mm ij.1 ij.2) m) rest).2.1,
       (runStmts dev
          ((walkCnot dev (mval m t0) (mval m c0)
            (dev.shortest_path (mval m c0) (mval m t0))).2.foldl
            (fun mm ij => permSwap mm ij.1 ij.2) m) rest).2.2) := by
  rw [runStmts_cons]
  rw [processStmt_cnot_some dev m c0 t0 (by
    rw [maccess_of_isSome hc, maccess_of_isSome ht]
    simpa [List.isEmpty_iff] using hne)]
  rw [maccess_of_isSome hc, maccess_of_isSome ht]
  simp

theorem runStmts_local (dev : Device) :
    ∀ (prog : List Gate) (m : PermMap),
      (runStmts dev m prog).2.2 = [] →
      ∀ c t, Gate.cnot c t ∈ (runStmts dev m prog).1 →
        symAdj dev c t = true
  | [], _, _, c, t, hmem => by simp [runStmts] at hmem
  | s :: rest, m, herr, c, t, hmem => by
    rw [runStmts_cons] at herr hmem
    have he1 : (processStmt dev m s).2.2 = [] :=
      (List.append_eq_nil.mp herr).1
    have he2 : (runStmts dev (processStmt dev m s).2.1 rest).2.2 = [] :=
      (List.append_eq_nil.mp herr).2
    rcases List.mem_append.mp hmem with h1 | h1
    · cases s with
      | u th ph la q0 =>
        rw [processStmt_u] at h1
        simp at h1
      | cnot c0 t0 =>
        by_cases hemp : (dev.shortest_path (maccess m c0).2
            (maccess (maccess m c0).1 t0).2).isEmpty = true
        · rw [processStmt_cnot_none dev m c0 t0 hemp] at he1
          simp at he1
        · rw [processStmt_cnot_some dev m c0 t0 hemp] at h1
          have hne : dev.shortest_path (maccess m c0).2
              (maccess (maccess m c0).1 t0).2 ≠ [] := by
            intro hcon
            rw [hcon] at hemp
            exact hemp rfl
          obtain ⟨hchain, _, _, _⟩ := shortest_path_nonempty hne
          exact walkCnot_local dev _ _ _ hchain c t h1
    · exact runStmts_local dev rest _ he2 c t h1



theorem runStmts_sem {uSem : Expr → Expr → Expr → Mat2}
    (hU : uSem hadArgs.1 hadArgs.2.1 hadArgs.2.2 = hadM) (dev : Device) :
    ∀ (prog : List Gate) (m : PermMap), permGood m dev.qubits →
      (∀ g ∈ prog, gateWF dev.qubits g) →
      (runStmts dev m prog).2.2 = [] →
      ∀ ψ, circSem uSem (runStmts dev m prog).1
          (relabel (pfun m dev.qubits) ψ) =
        relabel (pfun (runStmts dev m prog).2.1 dev.qubits)
          (circSem uSem prog ψ)
  | [], _, _, _, _, _ => rfl
  | s :: rest, m, hm, hwf, herr, ψ => by
    have hwf' : ∀ g ∈ rest, gateWF dev.qubits g :=
      fun g hg => hwf g (List.mem_cons_of_mem _ hg)
    cases s with
    | u th ph la q0 =>
      have hq : q0 < dev.qubits := hwf _ (List.mem_cons_self _ _)
      have hstep := runStmts_u_step dev m th ph la q0 rest (hm.1.1 q0 hq)
      rw [hstep] at herr ⊢
      have hq' : mval m q0 = pfun m dev.qubits q0 := by
        simp [pfun, hq]
      rw [hq']
      show circSem uSem (runStmts dev m rest).1
          (applyM (uSem th ph la) (pfun m dev.qubits q0)
            (relabel (pfun m dev.qubits) ψ)) = _
      rw [show applyM (uSem th ph la) (pfun m dev.qubits q0)
            (relabel (pfun m dev.qubits) ψ) =
          relabel (pfun m dev.qubits) (applyM (uSem th ph la) q0 ψ) from
        congrFun (relabel_applyM (pfun_injective hm) (uSem th ph la) q0) ψ]
      exact runStmts_sem hU dev rest m hm hwf' herr
        (applyM (uSem th ph la) q0 ψ)
    | cnot c0 t0 =>
      have hc0 : c0 < dev.qubits :=
        (hwf _ (List.mem_cons_self _ _)).1
      have ht0 : t0 < dev.qubits :=
        (hwf _ (List.mem_cons_self _ _)).2
      have hcS := hm.1.1 c0 hc0
      have htS := hm.1.1 t0 ht0
      have hne : dev.shortest_path (mval m c0) (mval m t0) ≠ [] := by
        intro hq
        rw [runStmts_cnot_none_step dev m c0 t0 rest hcS htS hq] at herr
        simp at herr
      have hstep := runStmts_cnot_some_step dev m c0 t0 rest hcS htS hne
      rw [hstep] at herr ⊢
      obtain ⟨hchain, hlast, hnd, hbnd⟩ := shortest_path_nonempty hne
      have hn : 0 < dev.qubits := by
        cases hp : dev.shortest_path (mval m c0) (mval m t0) with
        | nil => exact absurd hp hne
        | cons v vs =>
          have hv : v < dev.qubits := by
            rw [hp] at hbnd
            exact hbnd v (List.mem_cons_self _ _)
          omega
      have hcn : mval m c0 < dev.qubits := mval_lt hm hn c0
      have hsw := walkCnot_sws_bound dev (mval m t0) dev.qubits
        (dev.shortest_path (mval m c0) (mval m t0)) (mval m c0) hbnd hcn
      obtain ⟨hm', hpf⟩ := foldl_permSwap_spec
        (walkCnot dev (mval m t0) (mval m c0)
          (dev.shortest_path (mval m c0) (mval m t0))).2 m hm hsw
      have hw := walkCnot_sem hU dev (mval m t0)
        (dev.shortest_path (mval m c0) (mval m t0)) (mval m c0)
        hnd hne hlast
      rw [show circSem uSem
          ((walkCnot dev (mval m t0) (mval m c0)
            (dev.shortest_path (mval m c0) (mval m t0))).1 ++
           (runStmts dev
             ((walkCnot dev (mval m t0) (mval m c0)
               (dev.shortest_path (mval m c0) (mval m t0))).2.foldl
               (fun mm ij => permSwap mm ij.1 ij.2) m) rest).1)
          (relabel (pfun m dev.qubits) ψ) =
        circSem uSem
          (runStmts dev
            ((walkCnot dev (mval m t0) (mval m c0)
              (dev.shortest_path (mval m c0) (mval m t0))).2.foldl
              (fun mm ij => permSwap mm ij.1 ij.2) m) rest).1
          (circSem uSem
            (walkCnot dev (mval m t0) (mval m c0)
              (dev.shortest_path (mval m c0) (mval m t0))).1
            (relabel (pfun m dev.qubits) ψ)) from
        congrFun (circSem_append uSem _ _) _]
      rw [hw]
      show circSem uSem _
          (relabel (swsFun (walkCnot dev (mval m t0) (mval m c0)
            (dev.shortest_path (mval m c0) (mval m t0))).2)
            (applyCNOT (mval m c0) (mval m t0)
              (relabel (pfun m dev.qubits) ψ))) = _
      have hc' : mval m c0 = pfun m dev.qubits c0 := by simp [pfun, hc0]
      have ht' : mval m t0 = pfun m dev.qubits t0 := by simp [pfun, ht0]
      rw [show applyCNOT (mval m c0) (mval m t0)
            (relabel (pfun m dev.qubits) ψ) =
          relabel (pfun m dev.qubits) (applyCNOT c0 t0 ψ) from by
        rw [hc', ht']
        exact congrFun
          (relabel_applyCNOT (pfun_injective hm) c0 t0) ψ]
      rw [show relabel (swsFun (walkCnot dev (mval m t0) (mval m c0)
            (dev.shortest_path (mval m c0) (mval m t0))).2)
            (relabel (pfun m dev.qubits) (applyCNOT c0 t0 ψ)) =
          relabel (pfun ((walkCnot dev (mval m t0) (mval m c0)
            (dev.shortest_path (mval m c0) (mval m t0))).2.foldl
            (fun mm ij => permSwap mm ij.1 ij.2) m) dev.qubits)
            (applyCNOT c0 t0 ψ) from by
        rw [hpf]
        rfl]
      exact runStmts_sem hU dev rest _ hm' hwf' herr (applyCNOT c0 t0 ψ)



theorem pfun_initPerm (n : Nat) : pfun (initPerm n) n = id := by
  funext k
  by_cases hk : k < n
  · simp [pfun, hk, mval_initPerm hk]
  · simp [pfun, hk]

theorem pinv_pfun {m : PermMap} {n : Nat} (h : permGood m n) :
    ∀ k, pinv m n (pfun m n k) = k := by
  intro k
  by_cases hk : k < n
  · have hlt : pfun m n k < n := by
      have : mval m k < n := mval_lt h (by omega) k
      simpa [pfun, hk] using this
    unfold pinv
    rw [if_pos hlt]
    have hex : ((List.range n).find? (fun k' => mval m k' = pfun m n k)).isSome := by
      rw [List.find?_isSome]
      refine ⟨k, List.mem_range.mpr hk, ?_⟩
      simp [pfun, hk]
    obtain ⟨a, ha⟩ := Option.isSome_iff_exists.mp hex
    rw [ha]
    have hpa : mval m a = pfun m n k := by
      have := List.find?_some ha
      exact of_decide_eq_true this
    have han : a < n := List.mem_range.mp (List.mem_of_find?_eq_some ha)
    have hpk : pfun m n a = pfun m n k := by
      rw [show pfun m n a = mval m a from by simp [pfun, han], hpa]
    exact pfun_injective h hpk
  · have hid : pfun m n k = k := by simp [pfun, hk]
    rw [hid]
    unfold pinv
    rw [if_neg hk]


theorem permGood_runStmts (dev : Device) :
    ∀ (prog : List Gate) (m : PermMap), permGood m dev.qubits →
      permGood (runStmts dev m prog).2.1 dev.qubits
  | [], _, h => h
  | s :: rest, m, h => by
    rw [runStmts_cons]
    exact permGood_runStmts dev rest _ (permGood_processStmt dev s m h)

theorem permBij_permSwap {m : PermMap} {n i j : Nat} (hi : i < n)
    (hj : j < n) (h : permBij m n) : permBij (permSwap m i j) n := by
  refine ⟨?_, ?_⟩
  · intro k hk
    rw [mlook_permSwap]
    obtain ⟨v, hv⟩ := Option.isSome_iff_exists.mp (h.1 k hk)
    rw [hv]
    rfl
  · have h1 : (List.range n).map (mval (permSwap m i j)) =
        ((List.range n).map (mval m)).map (transp i j) := by
      rw [List.map_map]
      exact List.map_congr_left (fun k hk =>
        mval_permSwap_of_isSome i j (h.1 k (List.mem_range.mp hk)))
    rw [h1]
    exact (h.2.map (transp i j)).trans (map_transp_range_perm hi hj)

/-! ### Concrete devices and programs for the scenario claims -/

/-- The 3-qubit line device of Scenarios A and B: symmetric edges
`(0,1)` and `(1,2)`. -/
def dev3 : Device :=
  ⟨3, fun i j => decide ((i = 0 ∧ j = 1) ∨ (i = 1 ∧ j = 0) ∨
    (i = 1 ∧ j = 2) ∨ (i = 2 ∧ j = 1))⟩

/-- The 2-qubit device with the single directed edge `0 → 1`
(Scenario C). -/
def dev2dir : Device := ⟨2, fun i j => decide (i = 0 ∧ j = 1)⟩

/-- A 4-qubit device whose only edge is the directed `0 → 1`; qubits
`2` and `3` are disconnected. -/
def dev4err : Device := ⟨4, fun i j => decide (i = 0 ∧ j = 1)⟩

/-- A `U`-gate interpretation sending every angle triple to the
Hadamard matrix (enough for concrete witnesses). -/
def hadUSem : Expr → Expr → Expr → Mat2 := fun _ _ _ => hadM

/-! ### The claims -/

/-- C1.  Locality: for every program and device for which mapping
succeeds (no diagnostics), every two-qubit gate in the output of
`map_onto_device` has its operand pair in the symmetric closure of the
device coupling. -/
theorem locality (dev : Device) (prog : List Gate)
    (hok : (map_onto_device dev prog).2.2 = []) :
    ∀ c t, Gate.cnot c t ∈ (map_onto_device dev prog).1 →
      symAdj dev c t = true :=
  runStmts_local dev prog (initPerm dev.qubits) hok

theorem locality_witness :
    (map_onto_device dev3 [Gate.cnot 0 2]).2.2 = [] ∧
    symAdj dev3 0 1 = true :=
  ⟨by decide,
    locality dev3 [Gate.cnot 0 2] (by decide) 0 1 (by decide)⟩

/-- C2.  Semantic equivalence: for every well-formed program (qubit
indices below the device width, the spec's §3 data model) and device
for which mapping succeeds, the state-vector semantics of the output
program, post-composed with the permutation operator of the inverse of
the returned permutation, equals the semantics of the input program —
exactly, i.e. with overall phase `1`.  The interpretation `uSem` of
`U`-gate angle triples is arbitrary provided it sends the mapper's
emitted Hadamard `U(pi/2, 0, pi)` to the Hadamard matrix. -/
theorem semantic_equivalence (uSem : Expr → Expr → Expr → Mat2)
    (hU : uSem hadArgs.1 hadArgs.2.1 hadArgs.2.2 = hadM)
    (dev : Device) (prog : List Gate)
    (hwf : ∀ g ∈ prog, gateWF dev.qubits g)
    (hok : (map_onto_device dev prog).2.2 = []) :
    relabel (pinv (map_onto_device dev prog).2.1 dev.qubits) ∘
      circSem uSem (map_onto_device dev prog).1 = circSem uSem prog := by
  funext ψ
  have hgood : permGood (initPerm dev.qubits) dev.qubits :=
    permGood_init dev.qubits
  have hrun := runStmts_sem hU dev prog (initPerm dev.qubits) hgood hwf
    hok ψ
  rw [pfun_initPerm] at hrun
  have hfin : permGood (map_onto_device dev prog).2.1 dev.qubits :=
    permGood_runStmts dev prog (initPerm dev.qubits) hgood
  show relabel (pinv (map_onto_device dev prog).2.1 dev.qubits)
      (circSem uSem (map_onto_device dev prog).1 ψ) = circSem uSem prog ψ
  rw [show circSem uSem (map_onto_device dev prog).1 ψ =
      relabel (pfun (map_onto_device dev prog).2.1 dev.qubits)
        (circSem uSem prog ψ) from hrun]
  show relabel ((pinv (map_onto_device dev prog).2.1 dev.qubits) ∘
      (pfun (map_onto_device dev prog).2.1 dev.qubits))
      (circSem uSem prog ψ) = circSem uSem prog ψ
  rw [show (pinv (map_onto_device dev prog).2.1 dev.qubits) ∘
      (pfun (map_onto_device dev prog).2.1 dev.qubits) = id from
    funext (pinv_pfun hfin)]
  rfl

theorem semantic_equivalence_witness :
    hadUSem hadArgs.1 hadArgs.2.1 hadArgs.2.2 = hadM ∧
    (∀ g ∈ [Gate.cnot 0 2], gateWF dev3.qubits g) ∧
    (map_onto_device dev3 [Gate.cnot 0 2]).2.2 = [] ∧
    relabel (pinv (map_onto_device dev3 [Gate.cnot 0 2]).2.1
        dev3.qubits) ∘
      circSem hadUSem (map_onto_device dev3 [Gate.cnot 0 2]).1 =
      circSem hadUSem [Gate.cnot 0 2] :=
  ⟨rfl, by decide, by decide,
    semantic_equivalence hadUSem rfl dev3 [Gate.cnot 0 2] (by decide)
      (by decide)⟩

/-- C5.  Scenario B: on the 3-qubit line device, mapping the program
`CNOT q[0], q[2]` emits `SWAP(0,1)` expanded as the three CNOTs
`CNOT 0 1; CNOT 1 0; CNOT 0 1`, followed by `CNOT 1 2`, with no
diagnostics, and the returned permutation maps `0 ↦ 1`, `1 ↦ 0` and
`2 ↦ 2`. -/
theorem scenario_b :
    (map_onto_device dev3 [Gate.cnot 0 2]).1 =
      [generate_cnot 0 1, generate_cnot 1 0, generate_cnot 0 1,
        generate_cnot 1 2] ∧
    (map_onto_device dev3 [Gate.cnot 0 2]).2.2 = [] ∧
    mval (map_onto_device dev3 [Gate.cnot 0 2]).2.1 0 = 1 ∧
    mval (map_onto_device dev3 [Gate.cnot 0 2]).2.1 1 = 0 ∧
    mval (map_onto_device dev3 [Gate.cnot 0 2]).2.1 2 = 2 := by
  decide


/-- C7.  The permutation is the identity on `0 .. n-1` at the start of
the pass; after processing any prefix of the program (i.e. after every
per-gate rewrite) it is still a bijection on `0 .. n-1` (every key
below `n` is present and the stored values are a permutation of
`0 .. n-1`); and the update performed after each emitted SWAP of slots
`i` and `j` preserves bijectivity. -/
theorem permutation_bijection :
    (∀ n i, i < n → mval (initPerm n) i = i) ∧
    (∀ (dev : Device) (prog : List Gate) (k : Nat),
      permBij (runStmts dev (initPerm dev.qubits) (prog.take k)).2.1
        dev.qubits) ∧
    (∀ (m : PermMap) (n i j : Nat), i < n → j < n → permBij m n →
      permBij (permSwap m i j) n) := by
  refine ⟨?_, ?_, ?_⟩
  · intro n i hi
    exact mval_initPerm hi
  · intro dev prog k
    exact (permGood_runStmts dev (prog.take k) (initPerm dev.qubits)
      (permGood_init dev.qubits)).1
  · intro m n i j hi hj h
    exact permBij_permSwap hi hj h

theorem permutation_bijection_witness :
    mval (initPerm 3) 0 = 0 ∧
    permBij (runStmts dev3 (initPerm dev3.qubits)
      ([Gate.cnot 0 2].take 1)).2.1 dev3.qubits ∧
    (0 < 3 ∧ 1 < 3 ∧ permBij (initPerm 3) 3) ∧
    permBij (permSwap (initPerm 3) 0 1) 3 :=
  ⟨permutation_bijection.1 3 0 (by decide),
   permutation_bijection.2.1 dev3 [Gate.cnot 0 2] 1,
   ⟨by decide, by decide, by decide⟩,
   permutation_bijection.2.2 (initPerm 3) 3 0 1 (by decide) (by decide)
     (by decide)⟩

/-- C10.  When the shortest path computed for a CNOT is empty
(including the permuted-control-equals-permuted-target case), the
mapper records the diagnostic naming both (permuted) qubits, keeps the
gate as a single CNOT statement (its operands already rewritten
through the permutation), leaves the permutation untouched by that
gate, and the traversal continues with the remaining statements; the
run returns the permutation accumulated from them alone. -/
theorem empty_path_continues (dev : Device) (m : PermMap) (c0 t0 : Nat)
    (rest : List Gate) (hc : (mlook m c0).isSome)
    (ht : (mlook m t0).isSome)
    (he : dev.shortest_path (mval m c0) (mval m t0) = []) :
    runStmts dev m (Gate.cnot c0 t0 :: rest) =
      (Gate.cnot (mval m c0) (mval m t0) :: (runStmts dev m rest).1,
        (runStmts dev m rest).2.1,
        (mval m c0, mval m t0) :: (runStmts dev m rest).2.2) :=
  runStmts_cnot_none_step dev m c0 t0 rest hc ht he

theorem empty_path_continues_witness :
    ((mlook (initPerm 4) 0).isSome ∧ (mlook (initPerm 4) 2).isSome ∧
      dev4err.shortest_path (mval (initPerm 4) 0)
        (mval (initPerm 4) 2) = []) ∧
    runStmts dev4err (initPerm 4) [Gate.cnot 0 2, Gate.cnot 1 0] =
      (Gate.cnot (mval (initPerm 4) 0) (mval (initPerm 4) 2) ::
        (runStmts dev4err (initPerm 4) [Gate.cnot 1 0]).1,
       (runStmts dev4err (initPerm 4) [Gate.cnot 1 0]).2.1,
       (mval (initPerm 4) 0, mval (initPerm 4) 2) ::
        (runStmts dev4err (initPerm 4) [Gate.cnot 1 0]).2.2) :=
  ⟨⟨by decide, by decide, by decide⟩,
    empty_path_continues dev4err (initPerm 4) 0 2 [Gate.cnot 1 0]
      (by decide) (by decide) (by decide)⟩

/-- C3 counterexample: on the 4-qubit device whose only edge is the
directed `0 → 1`, the program `CNOT 0 2; CNOT 1 0` has its first gate
disconnected; the mapper reports the diagnostic `(0, 2)` but does not
fail for the whole program: the second statement is still rewritten
(to the Hadamard-sandwich of `CNOT 1 0`), so the output is a partial
rewrite, contradicting the claim that no partial rewrite is
produced. -/
theorem disconnected_no_abort_cex :
    (map_onto_device dev4err [Gate.cnot 0 2, Gate.cnot 1 0]).2.2 =
      [(0, 2)] ∧
    (map_onto_device dev4err [Gate.cnot 0 2, Gate.cnot 1 0]).1 =
      [Gate.cnot 0 2, generate_hadamard 1, generate_hadamard 0,
        Gate.cnot 0 1, generate_hadamard 1, generate_hadamard 0] ∧
    (map_onto_device dev4err [Gate.cnot 0 2, Gate.cnot 1 0]).1 ≠
      [Gate.cnot 0 2, Gate.cnot 1 0] := by
  decide

/-- C3 amended: a two-qubit gate whose (permuted) endpoints have no
connecting path makes the mapper report a diagnostic naming both
qubits and leave that gate unreplaced, but mapping does not fail for
the whole program: the remaining statements are still rewritten and
the pass returns normally (stated here for a program whose first
statement is the disconnected gate, where the permutation is still the
identity). -/
theorem disconnected_reports_and_continues (dev : Device) (c0 t0 : Nat)
    (rest : List Gate) (hc0 : c0 < dev.qubits) (ht0 : t0 < dev.qubits)
    (he : dev.shortest_path c0 t0 = []) :
    map_onto_device dev (Gate.cnot c0 t0 :: rest) =
      (Gate.cnot c0 t0 ::
        (runStmts dev (initPerm dev.qubits) rest).1,
       (runStmts dev (initPerm dev.qubits) rest).2.1,
       (c0, t0) :: (runStmts dev (initPerm dev.qubits) rest).2.2) := by
  have hcS : (mlook (initPerm dev.qubits) c0).isSome := by
    rw [mlook_initPerm]
    simp [hc0]
  have htS : (mlook (initPerm dev.qubits) t0).isSome := by
    rw [mlook_initPerm]
    simp [ht0]
  unfold map_onto_device
  rw [runStmts_cnot_none_step dev (initPerm dev.qubits) c0 t0 rest hcS
    htS (by rw [mval_initPerm hc0, mval_initPerm ht0]; exact he)]
  rw [mval_initPerm hc0, mval_initPerm ht0]

theorem disconnected_reports_and_continues_witness :
    (0 < dev4err.qubits ∧ 2 < dev4err.qubits ∧
      dev4err.shortest_path 0 2 = []) ∧
    map_onto_device dev4err (Gate.cnot 0 2 :: [Gate.cnot 1 0]) =
      (Gate.cnot 0 2 ::
        (runStmts dev4err (initPerm dev4err.qubits) [Gate.cnot 1 0]).1,
       (runStmts dev4err (initPerm dev4err.qubits) [Gate.cnot 1 0]).2.1,
       (0, 2) ::
        (runStmts dev4err (initPerm dev4err.qubits)
          [Gate.cnot 1 0]).2.2) :=
  ⟨⟨by decide, by decide, by decide⟩,
    disconnected_reports_and_continues dev4err 0 2 [Gate.cnot 1 0]
      (by decide) (by decide) (by decide)⟩


/-- Dummy external passes (identity layouts, identity Steiner mapper)
for concrete instantiations; the selector claims never reach them. -/
def extId : ExternalPasses :=
  ⟨fun _ _ => id, fun _ _ => id, fun _ p => p⟩

/-- The 2-qubit single-CNOT program used by the wrapper claims. -/
def wprog2 : WProgram := ⟨2, [Gate.cnot 0 1]⟩

/-- C4 counterexample: calling `map` with the valid layout `linear`
but the invalid mapper selector `bogus` on a 3-qubit device reports
the error, yet the program is not identical to its pre-call state: the
layout application already resized its register from 2 to the device
width 3. -/
theorem selector_error_changes_program_cex :
    (wrapperMap extId "linear" "bogus" dev3 wprog2).2 =
      some "Error: invalid mapping algorithm" ∧
    (wrapperMap extId "linear" "bogus" dev3 wprog2).1 =
      ⟨3, [Gate.cnot 0 1]⟩ ∧
    (wrapperMap extId "linear" "bogus" dev3 wprog2).1 ≠ wprog2 := by
  decide

/-- C4 amended: an invalid layout selector is reported and returns
early with the program in its post-inlining state, and an invalid
mapper selector (under a valid layout, stated for `linear`) is
reported and returns early with the program in its post-layout state —
register resized to the device width — which in general differs from
the program before the call. -/
theorem selector_errors_early_return :
    (∀ (ext : ExternalPasses) (layout mapper : String) (dev : Device)
        (p : WProgram),
      layout ≠ "linear" → layout ≠ "eager" → layout ≠ "bestfit" →
      wrapperMap ext layout mapper dev p =
        (inline_ast p, some "Error: invalid layout algorithm")) ∧
    (∀ (ext : ExternalPasses) (mapper : String) (dev : Device)
        (p : WProgram),
      mapper ≠ "swap" → mapper ≠ "steiner" →
      wrapperMap ext "linear" mapper dev p =
        (apply_layout (compute_basic_layout dev (inline_ast p)) dev
          (inline_ast p),
         some "Error: invalid mapping algorithm")) := by
  constructor
  · intro ext layout mapper dev p h1 h2 h3
    unfold wrapperMap
    simp [h1, h2, h3]
  · intro ext mapper dev p h1 h2
    unfold wrapperMap
    simp [h1, h2]

theorem selector_errors_early_return_witness :
    (("foo" : String) ≠ "linear" ∧ ("foo" : String) ≠ "eager" ∧
      ("foo" : String) ≠ "bestfit" ∧
      wrapperMap extId "foo" "swap" dev3 wprog2 =
        (inline_ast wprog2, some "Error: invalid layout algorithm")) ∧
    (("bogus" : String) ≠ "swap" ∧ ("bogus" : String) ≠ "steiner" ∧
      wrapperMap extId "linear" "bogus" dev3 wprog2 =
        (apply_layout (compute_basic_layout dev3 (inline_ast wprog2))
          dev3 (inline_ast wprog2),
         some "Error: invalid mapping algorithm")) :=
  ⟨⟨by decide, by decide, by decide,
    selector_errors_early_return.1 extId "foo" "swap" dev3 wprog2
      (by decide) (by decide) (by decide)⟩,
   ⟨by decide, by decide,
    selector_errors_early_return.2 extId "bogus" dev3 wprog2
      (by decide) (by decide)⟩⟩

/-- C8 counterexample: on the 3-qubit device, the reference `q[5]` is
out of range, yet the pass does not fail: the reference is rewritten
to offset `0` (the value `std::map::operator[]` default-inserts for
the missing key `5`), no diagnostic is recorded, and mapping
continues. -/
theorem out_of_range_rewritten_cex :
    processStmt dev3 (initPerm 3) (Gate.u Expr.pi Expr.pi Expr.pi 5) =
      ([Gate.u Expr.pi Expr.pi Expr.pi 0], initPerm 3 ++ [(5, 0)],
        []) := by
  decide

/-- C8 amended: an out-of-range reference is not detected and is not
fatal: every offset at least `n` is absent from the initial
permutation map, and a reference with an absent offset is rewritten to
offset `0`, with the key default-inserted and no diagnostic
recorded. -/
theorem out_of_range_default_zero :
    (∀ n k : Nat, n ≤ k → mlook (initPerm n) k = none) ∧
    (∀ (dev : Device) (m : PermMap) (th ph la : Expr) (q0 : Nat),
      mlook m q0 = none →
      processStmt dev m (Gate.u th ph la q0) =
        ([Gate.u th ph la 0], m ++ [(q0, 0)], [])) := by
  constructor
  · intro n k hk
    rw [mlook_initPerm]
    simp
    omega
  · intro dev m th ph la q0 h
    rw [processStmt_u]
    unfold maccess
    rw [h]

theorem out_of_range_default_zero_witness :
    (3 ≤ 5 ∧ mlook (initPerm 3) 5 = none) ∧
    processStmt dev3 (initPerm 3) (Gate.u Expr.pi Expr.pi Expr.pi 5) =
      ([Gate.u Expr.pi Expr.pi Expr.pi 0], initPerm 3 ++ [(5, 0)],
        []) :=
  ⟨⟨by decide, out_of_range_default_zero.1 3 5 (by decide)⟩,
   out_of_range_default_zero.2 dev3 (initPerm 3) Expr.pi Expr.pi
     Expr.pi 5 (out_of_range_default_zero.1 3 5 (by decide))⟩


/-- The 2-qubit `pystaq` device produced by `Device(2)`. -/
def pyDev2 : PyDevice :=
  ⟨2, List.replicate 2 FID1, List.replicate 2 (List.replicate 2 false),
    List.replicate 2 (List.replicate 2 FID1)⟩

/-- C9 counterexample: `add_edge(0, 1, fidelity = 2)` on `Device(2)`
reports the out-of-range fidelity, yet the call is not ignored: the
edge is still recorded in the adjacency matrix (in both directions),
so the adjacency matrix is not left as it was. -/
theorem add_edge_fidelity_cex :
    mkPyDevice 2 = some pyDev2 ∧
    (pyDev2.add_edge 0 1 false 2).2 = ["Fidelity out of range"] ∧
    (pyDev2.add_edge 0 1 false 2).1.tq_fi = pyDev2.tq_fi ∧
    (pyDev2.add_edge 0 1 false 2).1.adj ≠ pyDev2.adj := by
  decide

/-- C9 amended: out-of-range qubit indices are reported and the whole
call is ignored (the device is unchanged); an out-of-range fidelity on
in-range qubits is reported and leaves both fidelity matrices
unchanged, but the edge is nevertheless added to the adjacency
matrix. -/
theorem add_edge_partial_atomicity :
    (∀ (d : PyDevice) (c t : Int) (dir : Bool) (f : ℚ),
      (c < 0 ∨ d.n ≤ c ∨ t < 0 ∨ d.n ≤ t) →
      d.add_edge c t dir f = (d, ["Qubit(s) out of range"])) ∧
    (∀ (d : PyDevice) (c t : Int) (dir : Bool) (f : ℚ),
      ¬(c < 0 ∨ d.n ≤ c ∨ t < 0 ∨ d.n ≤ t) → f < 0 ∨ 1 < f →
      (d.add_edge c t dir f).1.tq_fi = d.tq_fi ∧
      (d.add_edge c t dir f).1.sq_fi = d.sq_fi ∧
      (d.add_edge c t dir f).2 = ["Fidelity out of range"] ∧
      (d.add_edge c t dir f).1.adj =
        (if dir then setMat d.adj c.toNat t.toNat true
         else setMat (setMat d.adj c.toNat t.toNat true) t.toNat
           c.toNat true)) := by
  constructor
  · intro d c t dir f h
    unfold PyDevice.add_edge
    have hb : (decide (c < 0) || decide (d.n ≤ c) || decide (t < 0) ||
        decide (d.n ≤ t)) = true := by
      rcases h with h | h | h | h <;> simp [h]
    simp only [hb, if_true]
  · intro d c t dir f h hf
    have hne : f ≠ FID1 := by
      intro heq
      rw [heq] at hf
      rcases hf with hf | hf <;> exact absurd hf (by decide)
    have hb : (decide (c < 0) || decide (d.n ≤ c) || decide (t < 0) ||
        decide (d.n ≤ t)) = false := by
      push_neg at h
      simp [h.1, h.2.1, h.2.2.1, h.2.2.2]
    have hbf : (decide (f < 0) || decide (1 < f)) = true := by
      rcases hf with hf | hf <;> simp [hf]
    unfold PyDevice.add_edge
    simp only [hb, Bool.false_eq_true, if_false, if_pos hne, hbf,
      if_true]
    refine ⟨?_, ?_, ?_, ?_⟩ <;> trivial


theorem add_edge_partial_atomicity_witness :
    ((5 : Int) < 0 ∨ pyDev2.n ≤ 5 ∨ (0 : Int) < 0 ∨ pyDev2.n ≤ 0) ∧
    pyDev2.add_edge 5 0 false FID1 = (pyDev2, ["Qubit(s) out of range"]) ∧
    (¬((0 : Int) < 0 ∨ pyDev2.n ≤ 0 ∨ (1 : Int) < 0 ∨ pyDev2.n ≤ 1) ∧
      ((2 : ℚ) < 0 ∨ 1 < (2 : ℚ))) ∧
    ((pyDev2.add_edge 0 1 false 2).1.tq_fi = pyDev2.tq_fi ∧
      (pyDev2.add_edge 0 1 false 2).1.sq_fi = pyDev2.sq_fi ∧
      (pyDev2.add_edge 0 1 false 2).2 = ["Fidelity out of range"] ∧
      (pyDev2.add_edge 0 1 false 2).1.adj =
        (if false then setMat pyDev2.adj (0 : Int).toNat (1 : Int).toNat
            true
         else setMat (setMat pyDev2.adj (0 : Int).toNat (1 : Int).toNat
            true) (1 : Int).toNat (0 : Int).toNat true)) :=
  ⟨by decide,
   add_edge_partial_atomicity.1 pyDev2 5 0 false FID1 (by decide),
   ⟨by decide, by decide⟩,
   add_edge_partial_atomicity.2 pyDev2 0 1 false 2 (by decide)
     (by decide)⟩

/-- C6.  SWAP encoding: for adjacent slots `a, b` (symmetric closure),
the SWAP is emitted as three CNOTs with the labels swapped beforehand
so that the first CNOT goes along a direction supported by `adj`; the
middle CNOT is replaced by its Hadamard-sandwich form
`H c; H t; CNOT t c; H c; H t` exactly when its direction violates
`adj`, so that every emitted CNOT is along a supported direction; and
every emitted single-qubit gate is the Hadamard `U(pi/2, 0, pi)`. -/
theorem swap_encoding (dev : Device) (a b : Nat)
    (hsym : symAdj dev a b = true) :
    (dev.coupled (if dev.coupled a b then a else b)
      (if dev.coupled a b then b else a) = true) ∧
    swapGates dev a b =
      [generate_cnot (if dev.coupled a b then a else b)
        (if dev.coupled a b then b else a)] ++
      (if dev.coupled (if dev.coupled a b then b else a)
          (if dev.coupled a b then a else b) then
        [generate_cnot (if dev.coupled a b then b else a)
          (if dev.coupled a b then a else b)]
       else
        [generate_hadamard (if dev.coupled a b then b else a),
         generate_hadamard (if dev.coupled a b then a else b),
         generate_cnot (if dev.coupled a b then a else b)
           (if dev.coupled a b then b else a),
         generate_hadamard (if dev.coupled a b then b else a),
         generate_hadamard (if dev.coupled a b then a else b)]) ++
      [generate_cnot (if dev.coupled a b then a else b)
        (if dev.coupled a b then b else a)] ∧
    (∀ c t, Gate.cnot c t ∈ swapGates dev a b →
      dev.coupled c t = true) ∧
    (∀ th ph la q, Gate.u th ph la q ∈ swapGates dev a b →
      th = Expr.div Expr.pi (Expr.int 2) ∧ ph = Expr.int 0 ∧
        la = Expr.pi) := by
  have hdir : dev.coupled (if dev.coupled a b then a else b)
      (if dev.coupled a b then b else a) = true := by
    by_cases hc : dev.coupled a b
    · rw [if_pos hc, if_pos hc]
      exact hc
    · rw [if_neg hc, if_neg hc]
      unfold symAdj at hsym
      unfold Device.coupled
      rcases Bool.or_eq_true_iff.mp hsym with h | h
      · exact absurd h hc
      · exact h
  refine ⟨hdir, ?_, ?_, ?_⟩
  · unfold swapGates generate_swapped_cnot
    rfl
  · intro c t hmem
    unfold swapGates at hmem
    by_cases hc : dev.coupled a b
    · simp only [hc, if_true] at hmem
      rcases List.mem_append.mp hmem with h1 | h1
      · rcases List.mem_append.mp h1 with h2 | h2
        · simp [generate_cnot] at h2
          rw [h2.1, h2.2]
          exact hc
        · by_cases hc2 : dev.coupled b a
          · rw [if_pos hc2] at h2
            simp [generate_cnot] at h2
            rw [h2.1, h2.2]
            exact hc2
          · rw [if_neg hc2] at h2
            rcases swapped_cnot_cnot_mem h2 with ⟨rfl, rfl⟩
            exact hc
      · simp [generate_cnot] at h1
        rw [h1.1, h1.2]
        exact hc
    · have hba : dev.coupled b a = true := by
        unfold symAdj at hsym
        unfold Device.coupled
        rcases Bool.or_eq_true_iff.mp hsym with h | h
        · exact absurd h hc
        · exact h
      simp only [hc, if_false, Bool.false_eq_true] at hmem
      rcases List.mem_append.mp hmem with h1 | h1
      · rcases List.mem_append.mp h1 with h2 | h2
        · simp [generate_cnot] at h2
          rw [h2.1, h2.2]
          exact hba
        · rcases swapped_cnot_cnot_mem h2 with ⟨rfl, rfl⟩
          exact hba
      · simp [generate_cnot] at h1
        rw [h1.1, h1.2]
        exact hba
  · intro th ph la q hmem
    unfold swapGates at hmem
    by_cases hc : dev.coupled a b <;>
      simp only [hc, if_true, if_false, Bool.false_eq_true] at hmem
    · rcases List.mem_append.mp hmem with h1 | h1
      · rcases List.mem_append.mp h1 with h2 | h2
        · simp [generate_cnot] at h2
        · by_cases hc2 : dev.coupled b a
          · rw [if_pos hc2] at h2
            simp [generate_cnot] at h2
          · rw [if_neg hc2] at h2
            simp [generate_swapped_cnot, generate_hadamard,
              generate_cnot] at h2
            rcases h2 with ⟨h3, h4, h5, _⟩ | ⟨h3, h4, h5, _⟩ |
              ⟨h3, h4, h5, _⟩ | ⟨h3, h4, h5, _⟩ <;>
              exact ⟨h3, h4, h5⟩
      · simp [generate_cnot] at h1
    · rcases List.mem_append.mp hmem with h1 | h1
      · rcases List.mem_append.mp h1 with h2 | h2
        · simp [generate_cnot] at h2
        · simp [generate_swapped_cnot, generate_hadamard,
            generate_cnot] at h2
          rcases h2 with ⟨h3, h4, h5, _⟩ | ⟨h3, h4, h5, _⟩ |
            ⟨h3, h4, h5, _⟩ | ⟨h3, h4, h5, _⟩ <;>
            exact ⟨h3, h4, h5⟩
      · simp [generate_cnot] at h1

theorem swap_encoding_witness :
    symAdj dev2dir 0 1 = true ∧
    dev2dir.coupled (if dev2dir.coupled 0 1 then 0 else 1)
      (if dev2dir.coupled 0 1 then 1 else 0) = true :=
  ⟨by decide, (swap_encoding dev2dir 0 1 (by decide)).1⟩

end StaqMap
